import Mathlib

/-!
Verification model of the order-book reconstruction core of the
`cryptotrader` repository, shallowly embedding
`src/deltatrader/models/orderbook.py`, `src/deltatrader/utils/integer_conversion.py`
and the order-book message routing of `src/deltatrader/core/market_data.py`.

Modelling conventions:
* Python decimal strings are Lean `String`s; `decimal.Decimal(s)` and `float(s)`
  are modelled by one exact rational-valued parser over the grammar
  `[+|-] digits [. digits]` (the grammar common to both constructors for the
  wire values in scope).  `float` equality/order observations in the source
  coincide with exact rational equality/order for all magnitudes exercised here.
* `int(...)` truncation toward zero is `truncRat`.
* Methods that mutate `self` become state-passing functions returning the new
  state; a raised exception becomes a `false`/`Except.error` component, with the
  returned state reflecting the mutations made before the raise.
* Python's stable `list.sort(key=..., reverse=...)` is modelled with
  `List.insertionSort` over the corresponding key order (also a stable sort).
-/

/-- Numeric value of a decimal digit character. -/
def charVal (c : Char) : ℕ := c.toNat - 48

/-- Is the character an ASCII decimal digit. -/
def isDigitCh (c : Char) : Bool := decide (48 ≤ c.toNat) && decide (c.toNat ≤ 57)

/-- Digit character for a value below ten. -/
def digitChar (k : ℕ) : Char := Char.ofNat (48 + k)

/-- Big-endian digit characters of a positive natural number, with fuel (kept
structurally recursive so that concrete strings evaluate inside the kernel). -/
def natDigitsBEAux : ℕ → ℕ → List Char
  | 0, _ => []
  | fuel + 1, n => if n = 0 then [] else natDigitsBEAux fuel (n / 10) ++ [digitChar (n % 10)]

/-- Big-endian digit characters of a natural number (at least one digit). -/
def natDigitsStr (n : ℕ) : List Char :=
  if n = 0 then ['0'] else natDigitsBEAux (n + 1) n

/-- Plain decimal string of a natural number, as Python `str` renders it. -/
def natToString (n : ℕ) : String := String.mk (natDigitsStr n)

/-- Split off the longest leading run of digit characters. -/
def takeDigitsL : List Char → List Char × List Char
  | [] => ([], [])
  | c :: rest =>
    if isDigitCh c then ((c :: (takeDigitsL rest).1), (takeDigitsL rest).2)
    else ([], c :: rest)

/-- Value of a big-endian digit-character list (Horner evaluation). -/
def ofDigitsBE (l : List Char) : ℕ := l.foldl (fun a c => 10 * a + charVal c) 0

/-- Attach a sign to a natural number, as an integer. -/
def signedZ (neg : Bool) (n : ℕ) : ℤ := if neg then -(n : ℤ) else (n : ℤ)

/-- Negate a rational when the flag says the literal carried a minus sign. -/
def applySignQ (neg : Bool) (q : ℚ) : ℚ := if neg then -q else q

/-- Strip an optional leading sign, reporting whether it was a minus. -/
def splitSign (cs : List Char) : Bool × List Char :=
  match cs with
  | [] => (false, [])
  | c :: t => if c = '-' then (true, t) else if c = '+' then (false, t) else (false, c :: t)

/-- Exact rational value of an unsigned decimal literal `digits [. digits]`
(at least one digit overall); `none` otherwise. -/
def parseUnsigned (cs : List Char) : Option ℚ :=
  let ip := takeDigitsL cs
  match ip.2 with
  | [] => if ip.1.isEmpty then none else some ((ofDigitsBE ip.1 : ℚ))
  | c :: r2 =>
    if c = '.' then
      let fp := takeDigitsL r2
      if fp.2.isEmpty && !(ip.1.isEmpty && fp.1.isEmpty) then
        some (((ofDigitsBE ip.1 * 10 ^ fp.1.length + ofDigitsBE fp.1 : ℕ) : ℚ) /
          (10 : ℚ) ^ fp.1.length)
      else none
    else none

/-- Exact rational value of a decimal literal `[+|-] digits [. digits]`;
`none` when the characters are not a numeric literal of that shape.
This models the conversions `decimal.Decimal(s)` and `float(s)` performed by
the source on wire strings (both raise on non-numeric input). -/
def parseDecCore (cs : List Char) : Option ℚ :=
  let sp := splitSign cs
  (parseUnsigned sp.2).map (applySignQ sp.1)

/-- Model of `decimal.Decimal(s)` on a wire string. -/
def parseDec (s : String) : Option ℚ := parseDecCore s.data

/-- Model of `float(s)` on a wire string (see the header: exact rational value). -/
def floatVal (s : String) : Option ℚ := parseDecCore s.data

/-- Model of Python `int(s)` on a string: optional sign, then digits only. -/
def parseIntStr (s : String) : Option ℤ :=
  let sp := splitSign s.data
  let ip := takeDigitsL sp.2
  if ip.2.isEmpty && !ip.1.isEmpty then some (signedZ sp.1 (ofDigitsBE ip.1)) else none

/-- Model of Python `int(q)`: truncation of a rational toward zero. -/
def truncRat (q : ℚ) : ℤ := q.num.tdiv (q.den : ℤ)

/-- Left-pad a digit list with zeros to the given width. -/
def padZeros (e : ℕ) (l : List Char) : List Char := List.replicate (e - l.length) '0' ++ l

/-- Decimal string of the rational `c / 10 ^ e`, rendered with exactly `e`
fractional digits (none when `e = 0`), as `str` renders a `Decimal` with
coefficient `|c|` and exponent `-e`. -/
def renderScaled (c : ℤ) (e : ℕ) : String :=
  let a := c.natAbs
  let sgn : List Char := if c < 0 then ['-'] else []
  if e = 0 then String.mk (sgn ++ natDigitsStr a)
  else String.mk (sgn ++ natDigitsStr (a / 10 ^ e) ++ '.' :: padZeros e (natDigitsStr (a % 10 ^ e)))

/-- Plain decimal string of an integer, as Python `str` renders it. -/
def intToString (n : ℤ) : String := renderScaled n 0

/-- Model of `str(Decimal(n) / Decimal(m))` for `m > 0`.  Python's `Decimal`
division returns the exact quotient with the exponent as close to the ideal
exponent `0` as possible; for the scales the registry produces (powers of ten)
the quotient is always exact.  `none` when no exact short decimal form exists
within the modelled bound (the source would then round per the default
28-significant-digit `Decimal` context; that regime is outside every claim). -/
def divDecOpt (n m : ℤ) : Option String :=
  match (List.range 121).find? (fun e => (n * 10 ^ e) % m = 0) with
  | some e => some (renderScaled ((n * 10 ^ e) / m) e)
  | none => none

/-- Registry state of `IntegerConverter`: the two per-symbol dicts
`_product_scales` and `_product_tick_sizes`, modelled as partial maps. -/
structure IntegerConverter where
  productScales : String → Option ℤ
  productTickSizes : String → Option ℤ

/-- `IntegerConverter.get_scale`: registered scale or the default `10^8`. -/
def getScale (c : IntegerConverter) (sym : String) : ℤ :=
  (c.productScales sym).getD 100000000

/-- `IntegerConverter.price_to_integer`: `int(Decimal(price) * scale)`;
`none` models the `InvalidOperation` raised on a non-numeric string. -/
def priceToInteger (c : IntegerConverter) (sym : String) (price : String) : Option ℤ :=
  (parseDec price).map (fun q => truncRat (q * (getScale c sym : ℚ)))

/-- `IntegerConverter.size_to_integer` on a string argument: values carrying a
decimal point are scaled by the fixed factor `10^8` and truncated, others go
through `int(...)`. -/
def sizeToIntegerStr (s : String) : Option ℤ :=
  if s.data.contains '.' then (parseDec s).map (fun q => truncRat (q * 100000000))
  else parseIntStr s

/-- `IntegerConverter.size_to_integer` with the `isinstance(size, int)` branch:
an integer argument passes through unchanged. -/
def sizeToInteger (v : ℤ ⊕ String) : Option ℤ :=
  match v with
  | Sum.inl n => some n
  | Sum.inr s => sizeToIntegerStr s

/-- `IntegerConverter.integer_to_price`: `str(Decimal(price_int) / Decimal(scale))`. -/
def integerToPrice (c : IntegerConverter) (sym : String) (priceInt : ℤ) : Option String :=
  divDecOpt priceInt (getScale c sym)

/-- `IntegerConverter.integer_to_size`: values above `1000000` are treated as
`8`-decimal scaled and divided back out, smaller ones rendered plainly. -/
def integerToSize (sizeInt : ℤ) : Option String :=
  if sizeInt > 1000000 then divDecOpt sizeInt 100000000
  else some (intToString sizeInt)

/-- `IntegerConverter.normalize_price`: round to the registered integer tick
size (Python `%` and `//` coincide with `Int` `%` and `/`, i.e. `Int.emod` and
`Int.ediv`, for the positive tick sizes the registry stores). -/
def normalizePrice (c : IntegerConverter) (sym : String) (priceInt : ℤ) : ℤ :=
  let tickSize := (c.productTickSizes sym).getD 1
  if tickSize = 1 then priceInt
  else
    let remainder := priceInt % tickSize
    if remainder = 0 then priceInt
    else if remainder ≥ tickSize / 2 then priceInt + (tickSize - remainder)
    else priceInt - remainder

/-- One CRC-32 bit round (reflected polynomial `0xEDB88320`), as in zlib. -/
def crc32Round (c : ℕ) : ℕ := if c % 2 = 1 then (c / 2) ^^^ 0xEDB88320 else c / 2

/-- Feed one byte into a CRC-32 state. -/
def crc32Byte (c b : ℕ) : ℕ := crc32Round^[8] (c ^^^ b)

/-- CRC-32 of a byte list, as `zlib.crc32` computes it. -/
def crc32 (bs : List ℕ) : ℕ := (bs.foldl crc32Byte 0xFFFFFFFF) ^^^ 0xFFFFFFFF

/-- UTF-8 encoding of one character (code point) as bytes. -/
def utf8EncodeChar (c : Char) : List ℕ :=
  let n := c.toNat
  if n < 128 then [n]
  else if n < 2048 then [192 + n / 64, 128 + n % 64]
  else if n < 65536 then [224 + n / 4096, 128 + (n / 64) % 64, 128 + n % 64]
  else [240 + n / 262144, 128 + (n / 4096) % 64, 128 + (n / 64) % 64, 128 + n % 64]

/-- UTF-8 bytes of a string, as Python `str.encode()` produces them. -/
def utf8Bytes (s : String) : List ℕ := (s.data.map utf8EncodeChar).flatten

/-- The `OrderBook` dataclass: integer ladders, the raw-string shadow ladders,
sequence number and timestamp. -/
structure OrderBook where
  symbol : String
  bids : List (ℤ × ℤ)
  asks : List (ℤ × ℤ)
  timestamp : ℤ
  sequenceNo : ℤ
  rawBids : List (String × String)
  rawAsks : List (String × String)
deriving DecidableEq

/-- A freshly constructed `OrderBook(symbol=symbol)`. -/
def emptyBook (sym : String) : OrderBook := ⟨sym, [], [], 0, 0, [], []⟩

/-- One level entry of a wire message: either the `[price, size]` array form of
`l2_updates` or the `{"limit_price": ..., "size": ...}` object form of
`l2_orderbook`; both carry the two strings the source extracts from them. -/
inductive LevelEntry
  | arr (price size : String)
  | obj (limitPrice size : String)
deriving DecidableEq

/-- The `(price_str, size_str)` pair the source extracts from either entry form. -/
def LevelEntry.strs : LevelEntry → String × String
  | .arr p s => (p, s)
  | .obj p s => (p, s)

/-- Message type tag as routed by `MarketDataManager._handle_orderbook_message`. -/
inductive MsgType
  | l2Orderbook
  | snapshot
  | update
  | other
deriving DecidableEq

/-- A parsed order-book wire message: the fields the source reads, each optional
field `none` when absent from the dict. -/
structure Msg where
  type : MsgType
  symbol : String
  timestamp : Option ℤ
  sequenceNo : Option ℤ
  lastSequenceNo : Option ℤ
  buy : Option (List LevelEntry)
  sell : Option (List LevelEntry)
  bidsField : Option (List LevelEntry)
  asksField : Option (List LevelEntry)
  cs : Option ℤ
deriving DecidableEq

/-- `int(data.get("sequence_no") or data.get("last_sequence_no", 0))`:
Python `or` falls through when `sequence_no` is absent or `0` (falsy). -/
def msgSeq (m : Msg) : ℤ :=
  let s := m.sequenceNo.getD 0
  if s = 0 then m.lastSequenceNo.getD 0 else s

/-- `data.get("buy") or data.get("bids", [])`: an absent or empty `buy` list
falls through to `bids`. -/
def buyEntries (m : Msg) : List LevelEntry :=
  let l := m.buy.getD []
  if l.isEmpty then m.bidsField.getD [] else l

/-- `data.get("sell") or data.get("asks", [])`. -/
def sellEntries (m : Msg) : List LevelEntry :=
  let l := m.sell.getD []
  if l.isEmpty then m.asksField.getD [] else l

/-- Key order for sorting integer levels ascending by price. -/
def levelLE (a b : ℤ × ℤ) : Prop := a.1 ≤ b.1

/-- Key order for sorting integer levels descending by price (`reverse=True`). -/
def levelGE (a b : ℤ × ℤ) : Prop := b.1 ≤ a.1

instance : DecidableRel levelLE := fun a b => inferInstanceAs (Decidable (a.1 ≤ b.1))

instance : DecidableRel levelGE := fun a b => inferInstanceAs (Decidable (b.1 ≤ a.1))

/-- Key order on float-decorated raw levels, ascending. -/
def ratKeyLE (a b : ℚ × (String × String)) : Prop := a.1 ≤ b.1

/-- Key order on float-decorated raw levels, descending. -/
def ratKeyGE (a b : ℚ × (String × String)) : Prop := b.1 ≤ a.1

instance : DecidableRel ratKeyLE := fun a b => inferInstanceAs (Decidable (a.1 ≤ b.1))

instance : DecidableRel ratKeyGE := fun a b => inferInstanceAs (Decidable (b.1 ≤ a.1))

/-- `levels.sort(reverse=reverse, key=lambda x: x[0])` on integer levels:
stable sort by price key. -/
def sortLevels (rev : Bool) (levels : List (ℤ × ℤ)) : List (ℤ × ℤ) :=
  if rev then List.insertionSort levelGE levels else List.insertionSort levelLE levels

/-- `levels.sort(reverse=reverse, key=lambda x: float(x[0]))` on raw levels:
Python first computes every key (`none` when some key raises, leaving the list
unchanged), then stably sorts the decorated list. -/
def sortRawLevels (rev : Bool) (levels : List (String × String)) :
    Option (List (String × String)) :=
  match levels.mapM (fun e => (floatVal e.1).map (fun v => (v, e))) with
  | none => none
  | some keyed =>
    some ((if rev then List.insertionSort ratKeyGE keyed
           else List.insertionSort ratKeyLE keyed).map Prod.snd)

/-- The found-a-level part of `OrderBook._update_level`: replace the size at
the first level with this price, or pop it when the new size is zero. -/
def replaceOrRemove : List (ℤ × ℤ) → ℤ → ℤ → List (ℤ × ℤ)
  | [], _, _ => []
  | (p, s) :: rest, price, size =>
    if p = price then (if size = 0 then rest else (price, size) :: rest)
    else (p, s) :: replaceOrRemove rest price size

/-- `OrderBook._update_level`: update or remove the first matching price level,
else append a positive-size level and re-sort. -/
def updateLevel (levels : List (ℤ × ℤ)) (price size : ℤ) (rev : Bool) : List (ℤ × ℤ) :=
  if levels.any (fun pr => pr.1 = price) then replaceOrRemove levels price size
  else if size > 0 then sortLevels rev (levels ++ [(price, size)]) else levels

/-- The lookup loop of `OrderBook._update_raw_level`: first index whose stored
price string has the given float value; outer `none` when a stored price fails
to parse before a match is found (the raise leaves the list untouched). -/
def findRawIdx : List (String × String) → ℚ → Option (Option ℕ)
  | [], _ => some none
  | (p, _) :: rest, pf =>
    match floatVal p with
    | none => none
    | some v =>
      if v = pf then some (some 0)
      else (findRawIdx rest pf).map (Option.map (· + 1))

/-- `OrderBook._update_raw_level`, with the state after a raise in the second
component (`false`): the source parses `float(price_str)`, walks the stored
levels comparing float values, then either pops/replaces the match or appends
and re-sorts when `float(size_str) > 0`. -/
def updateRawLevel (levels : List (String × String)) (priceStr sizeStr : String)
    (rev : Bool) : List (String × String) × Bool :=
  match floatVal priceStr with
  | none => (levels, false)
  | some pf =>
    match findRawIdx levels pf with
    | none => (levels, false)
    | some (some i) =>
      match floatVal sizeStr with
      | none => (levels, false)
      | some sv =>
        if sv = 0 then (levels.eraseIdx i, true) else (levels.set i (priceStr, sizeStr), true)
    | some none =>
      match floatVal sizeStr with
      | none => (levels, false)
      | some sv =>
        if sv > 0 then
          let appended := levels ++ [(priceStr, sizeStr)]
          match sortRawLevels rev appended with
          | none => (appended, false)
          | some sorted => (sorted, true)
        else (levels, true)

/-- The per-side conversion-and-append loop of `update_from_snapshot`: build
the integer and raw lists pairwise; on a conversion raise, return the partial
lists built so far with `false`. -/
def buildSide (conv : IntegerConverter) (sym : String) :
    List LevelEntry → (List (ℤ × ℤ) × List (String × String)) × Bool
  | [] => (([], []), true)
  | e :: rest =>
    let ps := e.strs.1
    let ss := e.strs.2
    match priceToInteger conv sym ps with
    | none => (([], []), false)
    | some pi =>
      match sizeToIntegerStr ss with
      | none => (([], []), false)
      | some si =>
        let r := buildSide conv sym rest
        (((pi, si) :: r.1.1, (ps, ss) :: r.1.2), r.2)

/-- The per-side update loop of `apply_update`: convert each entry, update the
integer ladder then the raw ladder; stop at the first raise, returning the
state mutated so far with `false`. -/
def applySide (conv : IntegerConverter) (sym : String) (rev : Bool) :
    List (ℤ × ℤ) → List (String × String) → List LevelEntry →
    (List (ℤ × ℤ) × List (String × String)) × Bool
  | levels, raw, [] => ((levels, raw), true)
  | levels, raw, e :: rest =>
    let ps := e.strs.1
    let ss := e.strs.2
    match priceToInteger conv sym ps with
    | none => ((levels, raw), false)
    | some pi =>
      match sizeToIntegerStr ss with
      | none => ((levels, raw), false)
      | some si =>
        let levels' := updateLevel levels pi si rev
        let rr := updateRawLevel raw ps ss rev
        if rr.2 then applySide conv sym rev levels' rr.1 rest
        else ((levels', rr.1), false)

/-- `OrderBook.update_from_snapshot`: replace symbol, timestamp, sequence and
both sides, then sort each side (integer ladders by price, raw ladders by
float price).  The `Bool` is `false` when a conversion raised, the returned
book holding whatever had been mutated up to that point. -/
def updateFromSnapshot (conv : IntegerConverter) (b : OrderBook) (m : Msg) :
    OrderBook × Bool :=
  let b0 := { b with symbol := m.symbol, timestamp := m.timestamp.getD 0,
                     sequenceNo := msgSeq m }
  match buildSide conv m.symbol (buyEntries m) with
  | ((bl, rbl), false) => ({ b0 with bids := bl, rawBids := rbl }, false)
  | ((bl, rbl), true) =>
    match buildSide conv m.symbol (sellEntries m) with
    | ((al, ral), false) =>
      ({ b0 with bids := bl, rawBids := rbl, asks := al, rawAsks := ral }, false)
    | ((al, ral), true) =>
      let bl' := sortLevels true bl
      let al' := sortLevels false al
      match sortRawLevels true rbl with
      | none => ({ b0 with bids := bl', asks := al', rawBids := rbl, rawAsks := ral }, false)
      | some rbl' =>
        match sortRawLevels false ral with
        | none => ({ b0 with bids := bl', asks := al', rawBids := rbl', rawAsks := ral }, false)
        | some ral' =>
          ({ b0 with bids := bl', asks := al', rawBids := rbl', rawAsks := ral' }, true)

/-- `OrderBook.apply_update`: check strict sequence contiguity, then set
sequence/timestamp and upsert every buy and sell entry.  `Except.ok false` is
the gap return, `Except.error ()` a conversion raise (with the partially
mutated book alongside). -/
def applyUpdate (conv : IntegerConverter) (b : OrderBook) (m : Msg) :
    OrderBook × Except Unit Bool :=
  let newSeq := msgSeq m
  if b.sequenceNo > 0 ∧ newSeq ≠ b.sequenceNo + 1 then (b, Except.ok false)
  else
    let b1 := { b with sequenceNo := newSeq, timestamp := m.timestamp.getD 0 }
    match applySide conv b1.symbol true b1.bids b1.rawBids (buyEntries m) with
    | ((bl, rbl), false) => ({ b1 with bids := bl, rawBids := rbl }, Except.error ())
    | ((bl, rbl), true) =>
      let b2 := { b1 with bids := bl, rawBids := rbl }
      match applySide conv b2.symbol false b2.asks b2.rawAsks (sellEntries m) with
      | ((al, ral), false) => ({ b2 with asks := al, rawAsks := ral }, Except.error ())
      | ((al, ral), true) => ({ b2 with asks := al, rawAsks := ral }, Except.ok true)

/-- `OrderBook.compute_checksum`: CRC32 over `"asks|bids"` built from the raw
top-10 levels (the converter argument of the method is unused by its body;
`& 0xFFFFFFFF` is the final `% 2^32` mask). -/
def computeChecksum (_conv : IntegerConverter) (b : OrderBook) : ℕ :=
  let topRawAsks := b.rawAsks.take 10
  let topRawBids := b.rawBids.take 10
  let askParts := topRawAsks.map (fun pr => pr.1 ++ ":" ++ pr.2)
  let bidParts := topRawBids.map (fun pr => pr.1 ++ ":" ++ pr.2)
  let checksumString := String.intercalate "," askParts ++ "|" ++ String.intercalate "," bidParts
  crc32 (utf8Bytes checksumString) % 4294967296

/-- `OrderBook.validate_checksum`: compute and compare, returning the book
unchanged (the method performs no assignment). -/
def validateChecksum (conv : IntegerConverter) (b : OrderBook) (checksum : ℤ) :
    OrderBook × Bool :=
  (b, decide ((computeChecksum conv b : ℤ) = checksum))

/-- The per-symbol dicts of `MarketDataManager` that the order-book handler
touches: `_orderbooks` and `_pending_snapshots`. -/
structure MarketState where
  orderbooks : String → Option OrderBook
  pendingSnapshots : String → Option Bool

/-- Store a book under a symbol (`self._orderbooks[symbol] = orderbook`). -/
def setBook (st : MarketState) (sym : String) (b : OrderBook) : MarketState :=
  { st with orderbooks := fun s => if s = sym then some b else st.orderbooks s }

/-- Store a pending-snapshot flag (`self._pending_snapshots[symbol] = v`). -/
def setPending (st : MarketState) (sym : String) (v : Bool) : MarketState :=
  { st with pendingSnapshots := fun s => if s = sym then some v else st.pendingSnapshots s }

/-- The post-apply checksum block of `_handle_orderbook_message`: an (integer)
`cs` field that is present and truthy is compared against the computed
checksum; a mismatch is only reported. -/
def csMismatch (conv : IntegerConverter) (b : OrderBook) (m : Msg) : Bool :=
  match m.cs with
  | some c => if c ≠ 0 then decide (¬((computeChecksum conv b : ℤ) = c)) else false
  | none => false

/-- Observable effects of one `_handle_orderbook_message` call: whether the
consumer callbacks were notified, whether a checksum mismatch was logged,
whether a resubscribe was triggered, and whether an exception was caught. -/
structure HandleOutcome where
  notified : Bool
  checksumMismatch : Bool
  resubscribed : Bool
  errored : Bool
deriving DecidableEq

/-- `MarketDataManager._handle_orderbook_message` for one order-book message:
look up or create the book, route on message type (snapshot applies clear the
pending flag; updates are skipped while the flag is set, and a sequence-gap
failure sets it and resubscribes), then validate a provided checksum,
reporting only. -/
def handleOrderbookMessage (conv : IntegerConverter) (st : MarketState) (m : Msg) :
    MarketState × HandleOutcome :=
  let ob0 := (st.orderbooks m.symbol).getD (emptyBook m.symbol)
  let st1 := setBook st m.symbol ob0
  match m.type with
  | MsgType.l2Orderbook | MsgType.snapshot =>
    match updateFromSnapshot conv ob0 m with
    | (ob1, false) => (setBook st1 m.symbol ob1, ⟨false, false, false, true⟩)
    | (ob1, true) =>
      (setPending (setBook st1 m.symbol ob1) m.symbol false,
       ⟨true, csMismatch conv ob1 m, false, false⟩)
  | MsgType.update =>
    if (st1.pendingSnapshots m.symbol).getD true then (st1, ⟨false, false, false, false⟩)
    else
      match applyUpdate conv ob0 m with
      | (ob1, Except.error _) => (setBook st1 m.symbol ob1, ⟨false, false, false, true⟩)
      | (ob1, Except.ok false) =>
        (setPending (setBook st1 m.symbol ob1) m.symbol true, ⟨false, false, true, false⟩)
      | (ob1, Except.ok true) =>
        (setBook st1 m.symbol ob1, ⟨true, csMismatch conv ob1 m, false, false⟩)
  | MsgType.other => (st1, ⟨false, false, false, false⟩)

/-!  Spec-side definitions (written from the specification's words, for the
refinement statements that compare them with the embedded source). -/

/-- Spec. step: join a list of entry strings with a comma separator. -/
def specJoinComma : List String → String
  | [] => ""
  | [x] => x
  | x :: xs => x ++ "," ++ specJoinComma xs

/-- Spec. checksum string: the first ten raw ask entries and first ten raw bid
entries, each formatted `"<price_str>:<size_str>"` with the exact raw strings,
joined per side with commas, concatenated as `"<asks>|<bids>"`. -/
def specChecksumString (b : OrderBook) : String :=
  specJoinComma ((b.rawAsks.take 10).map (fun pr => pr.1 ++ ":" ++ pr.2)) ++ "|" ++
    specJoinComma ((b.rawBids.take 10).map (fun pr => pr.1 ++ ":" ++ pr.2))

/-!  Ladder/raw-ladder correspondence predicates used by the invariant claims. -/

/-- Integer price key of a raw price string (defined when it parses). -/
def ik (conv : IntegerConverter) (sym : String) (p : String) : ℤ :=
  (priceToInteger conv sym p).getD 0

/-- Float key of a raw price string (defined when it parses). -/
def fk (p : String) : ℚ := (floatVal p).getD 0

/-- A raw level corresponds to an integer level: its strings convert exactly to
the stored integer price and size. -/
def LevelCorr (conv : IntegerConverter) (sym : String) (lv : ℤ × ℤ) (rw : String × String) :
    Prop :=
  priceToInteger conv sym rw.1 = some lv.1 ∧ sizeToIntegerStr rw.2 = some lv.2

/-- The integer ladder and the raw ladder of one side are aligned: same number
of entries, and entry `i` of the raw ladder is the string form of entry `i` of
the integer ladder. -/
def Aligned (conv : IntegerConverter) (sym : String) (levels : List (ℤ × ℤ))
    (raw : List (String × String)) : Prop :=
  List.Forall₂ (LevelCorr conv sym) levels raw

/-- The price strings of a pool `S` all parse, and their integer keys and float
keys induce the same equalities and the same order (the regime in which the
integer ladder and the float-keyed raw ladder move in lockstep). -/
structure PricesOK (conv : IntegerConverter) (sym : String) (S : List String) : Prop where
  parseP : ∀ p ∈ S, (priceToInteger conv sym p).isSome
  parseF : ∀ p ∈ S, (floatVal p).isSome
  eqA : ∀ p ∈ S, ∀ q ∈ S, (ik conv sym p = ik conv sym q ↔ fk p = fk q)
  leA : ∀ p ∈ S, ∀ q ∈ S, (ik conv sym p ≤ ik conv sym q ↔ fk p ≤ fk q)

/-- A size string whose integer conversion and float value agree about being
zero and about being positive (excludes sub-`10^-8` sizes, which the integer
ladder drops but the raw ladder keeps). -/
def SizeOK (s : String) : Prop :=
  (sizeToIntegerStr s).isSome ∧ (floatVal s).isSome ∧
    ((sizeToIntegerStr s).getD 0 = 0 ↔ (floatVal s).getD 0 = 0) ∧
    (0 < (sizeToIntegerStr s).getD 0 ↔ 0 < (floatVal s).getD 0)

/-- A message entry is harmless for ladder alignment: whenever both of its
strings convert, its price lies in the agreed pool and its size is `SizeOK`. -/
def entryOK (conv : IntegerConverter) (sym : String) (S : List String) (e : LevelEntry) :
    Prop :=
  (priceToInteger conv sym e.strs.1).isSome → (sizeToIntegerStr e.strs.2).isSome →
    (e.strs.1 ∈ S ∧ SizeOK e.strs.2)

def c6conv : IntegerConverter :=
  ⟨fun s => if s = "P" then some 10 else none, fun s => if s = "P" then some 5 else none⟩

def c8conv : IntegerConverter :=
  ⟨fun _ => none, fun s => if s = "X" then some 5 else none⟩

def c8wconv : IntegerConverter :=
  ⟨fun _ => none, fun s => if s = "W" then some 10 else none⟩

def c8uconv : IntegerConverter :=
  ⟨fun _ => none, fun _ => none⟩

def c2conv : IntegerConverter := ⟨fun _ => none, fun _ => none⟩

def c2book : OrderBook :=
  ⟨"T", [(100, 5)], [(300, 4)], 1000, 1, [("1.00", "5")], [("3.00", "4")]⟩

def c2msg : Msg :=
  ⟨MsgType.update, "T", some 2000, some 7, none, some [LevelEntry.arr "2.00" "3"],
    none, none, none, none⟩

def c10conv : IntegerConverter :=
  ⟨fun s => if s = "T" then some 100 else none, fun _ => none⟩

def c10book : OrderBook := ⟨"T", [], [], 0, 0, [], []⟩

def c10msg : Msg :=
  ⟨MsgType.update, "T", some 5000, some 42, none, some [LevelEntry.arr "1.50" "2"],
    none, none, none, none⟩

def c10st : MarketState := ⟨fun _ => none, fun _ => none⟩

instance {ε α : Type} [DecidableEq ε] [DecidableEq α] : DecidableEq (Except ε α) :=
  fun x y =>
    match x, y with
    | Except.error e, Except.error f =>
      if h : e = f then Decidable.isTrue (by rw [h])
      else Decidable.isFalse (fun c => h (by injection c))
    | Except.ok a, Except.ok b =>
      if h : a = b then Decidable.isTrue (by rw [h])
      else Decidable.isFalse (fun c => h (by injection c))
    | Except.error _, Except.ok _ => Decidable.isFalse (fun c => Except.noConfusion c)
    | Except.ok _, Except.error _ => Decidable.isFalse (fun c => Except.noConfusion c)

def c9conv : IntegerConverter :=
  ⟨fun s => if s = "T" then some 100 else none, fun _ => none⟩

def c9book : OrderBook :=
  ⟨"T", [(100, 5)], [(300, 4)], 1000, 1, [("1.00", "5")], [("3.00", "4")]⟩

def c9book2 : OrderBook := ⟨"U", [], [], 5, 9, [("1.00", "5")], [("3.00", "4")]⟩

def c9msg : Msg :=
  ⟨MsgType.update, "T", some 2000, some 2, none, some [LevelEntry.arr "2.00" "3"],
    none, none, none, some 1⟩

def c9st : MarketState :=
  ⟨fun s => if s = "T" then some c9book else none,
   fun s => if s = "T" then some false else none⟩

def c9ob1 : OrderBook :=
  ⟨"T", [(200, 3), (100, 5)], [(300, 4)], 2000, 2, [("2.00", "3"), ("1.00", "5")],
    [("3.00", "4")]⟩

/-- Float-key order on raw levels, descending (the sort key of the raw bid
ladder). -/
def rawGE (a b : String × String) : Prop := fk b.1 ≤ fk a.1

/-- Float-key order on raw levels, ascending (the sort key of the raw ask
ladder). -/
def rawLE (a b : String × String) : Prop := fk a.1 ≤ fk b.1

instance : DecidableRel rawGE := fun a b => inferInstanceAs (Decidable (fk b.1 ≤ fk a.1))

instance : DecidableRel rawLE := fun a b => inferInstanceAs (Decidable (fk a.1 ≤ fk b.1))

def c3conv : IntegerConverter :=
  ⟨fun s => if s = "T" then some 100 else none, fun _ => none⟩

def c3S : List String := ["1.00", "2.00"]

def c3snap : Msg :=
  ⟨MsgType.snapshot, "T", some 1000, some 1, none, some [LevelEntry.arr "1.00" "5"],
    none, none, none, none⟩

def c3delta : Msg :=
  ⟨MsgType.update, "T", some 2000, some 2, none,
    some [LevelEntry.arr "2.00" "0.000000001"], none, none, none, none⟩

def c3wmsg : Msg :=
  ⟨MsgType.update, "T", some 2000, some 1, none, some [LevelEntry.arr "2.00" "3"],
    none, none, none, none⟩

def c5conv : IntegerConverter :=
  ⟨fun s => if s = "T" then some 100 else none, fun _ => none⟩

def c5book : OrderBook := ⟨"T", [(100, 5)], [], 1000, 1, [("1.00", "5")], []⟩

def c5delta : Msg :=
  ⟨MsgType.update, "T", some 2000, some 2, none,
    some [LevelEntry.arr "2.50" "7", LevelEntry.arr "zzz" "1"], none, none, none, none⟩

def c5wmsg : Msg :=
  ⟨MsgType.update, "T", some 2000, some 1, none, none,
    some [LevelEntry.arr "zzz" "1"], none, none, none⟩

/-!  ## Digit-string lemmas -/

theorem charVal_digitChar (k : ℕ) (hk : k < 10) : charVal (digitChar k) = k := by
  interval_cases k <;> decide

theorem isDigitCh_digitChar (k : ℕ) (hk : k < 10) : isDigitCh (digitChar k) = true := by
  interval_cases k <;> decide

theorem natDigitsBEAux_eq (fuel n : ℕ) (h : n ≤ fuel) :
    natDigitsBEAux fuel n = ((Nat.digits 10 n).map digitChar).reverse := by
  induction fuel generalizing n with
  | zero =>
    have h0 : n = 0 := by omega
    subst h0
    simp [natDigitsBEAux]
  | succ f ih =>
    by_cases h0 : n = 0
    · subst h0
      simp [natDigitsBEAux]
    · have hdiv : n / 10 < n := Nat.div_lt_self (Nat.pos_of_ne_zero h0) (by norm_num)
      rw [natDigitsBEAux, if_neg h0, ih (n / 10) (by omega),
        Nat.digits_def' (by norm_num : (1 : ℕ) < 10) (Nat.pos_of_ne_zero h0)]
      simp

theorem natDigitsStr_eq (n : ℕ) :
    natDigitsStr n = if n = 0 then ['0'] else ((Nat.digits 10 n).map digitChar).reverse := by
  unfold natDigitsStr
  by_cases h : n = 0
  · simp [h]
  · rw [if_neg h, if_neg h, natDigitsBEAux_eq (n + 1) n (by omega)]

theorem natDigitsStr_all_digits (n : ℕ) : ∀ c ∈ natDigitsStr n, isDigitCh c = true := by
  intro c hc
  rw [natDigitsStr_eq] at hc
  by_cases h : n = 0
  · simp [h] at hc
    subst hc; decide
  · simp [h, List.mem_reverse, List.mem_map] at hc
    obtain ⟨d, hd, rfl⟩ := hc
    exact isDigitCh_digitChar d (Nat.digits_lt_base (by norm_num) hd)

theorem natDigitsStr_ne_nil (n : ℕ) : natDigitsStr n ≠ [] := by
  rw [natDigitsStr_eq]
  by_cases h : n = 0
  · simp [h]
  · simp [h, Nat.digits_ne_nil_iff_ne_zero.mpr h]

theorem takeDigitsL_all (l : List Char) (h : ∀ c ∈ l, isDigitCh c = true) :
    takeDigitsL l = (l, []) := by
  induction l with
  | nil => rfl
  | cons c t ih =>
    have hc := h c (List.mem_cons_self c t)
    simp [takeDigitsL, hc, ih (fun x hx => h x (List.mem_cons_of_mem c hx))]

theorem takeDigitsL_append (l m : List Char) (h : ∀ c ∈ l, isDigitCh c = true) :
    takeDigitsL (l ++ m) = (l ++ (takeDigitsL m).1, (takeDigitsL m).2) := by
  induction l with
  | nil => simp
  | cons c t ih =>
    have hc := h c (List.mem_cons_self c t)
    simp [takeDigitsL, hc, ih (fun x hx => h x (List.mem_cons_of_mem c hx))]

theorem ofDigitsBE_snoc (L : List Char) (x : Char) :
    ofDigitsBE (L ++ [x]) = 10 * ofDigitsBE L + charVal x := by
  simp [ofDigitsBE, List.foldl_append]

theorem ofDigitsBE_rev_digits (ds : List ℕ) (h : ∀ d ∈ ds, d < 10) :
    ofDigitsBE ((ds.map digitChar).reverse) = Nat.ofDigits 10 ds := by
  induction ds with
  | nil => rfl
  | cons d t ih =>
    have hd := h d (List.mem_cons_self d t)
    simp only [List.map_cons, List.reverse_cons, ofDigitsBE_snoc,
      ih (fun x hx => h x (List.mem_cons_of_mem d hx)), charVal_digitChar d hd,
      Nat.ofDigits_cons]
    ring

theorem ofDigitsBE_natDigitsStr (n : ℕ) : ofDigitsBE (natDigitsStr n) = n := by
  rw [natDigitsStr_eq]
  by_cases h : n = 0
  · subst h; decide
  · rw [if_neg h, ofDigitsBE_rev_digits _ (fun d hd => Nat.digits_lt_base (by norm_num) hd),
      Nat.ofDigits_digits]

theorem foldl_replicate_zero (k : ℕ) :
    List.foldl (fun a c => 10 * a + charVal c) 0 (List.replicate k '0') = 0 := by
  induction k with
  | zero => rfl
  | succ m ih => simpa [List.replicate_succ, charVal] using ih

theorem ofDigitsBE_padZeros (e : ℕ) (l : List Char) :
    ofDigitsBE (padZeros e l) = ofDigitsBE l := by
  simp [padZeros, ofDigitsBE, List.foldl_append, foldl_replicate_zero]

theorem padZeros_all_digits (e : ℕ) (l : List Char) (h : ∀ c ∈ l, isDigitCh c = true) :
    ∀ c ∈ padZeros e l, isDigitCh c = true := by
  intro c hc
  rcases List.mem_append.mp hc with h0 | hl
  · rw [List.eq_of_mem_replicate h0]; decide
  · exact h c hl

theorem padZeros_length (e : ℕ) (l : List Char) (h : l.length ≤ e) :
    (padZeros e l).length = e := by
  simp [padZeros]; omega

theorem natDigitsStr_length_le (n e : ℕ) (h : n < 10 ^ e) (he : 1 ≤ e) :
    (natDigitsStr n).length ≤ e := by
  rw [natDigitsStr_eq]
  by_cases h0 : n = 0
  · simpa [h0] using he
  · rw [if_neg h0]
    simp only [List.length_reverse, List.length_map]
    by_contra hgt
    push_neg at hgt
    have h1 : 10 ^ (Nat.digits 10 n).length ≤ 10 * n :=
      Nat.base_pow_length_digits_le 10 n (by norm_num) h0
    have h2 : 10 * n < 10 ^ (e + 1) := by
      calc 10 * n < 10 * 10 ^ e := by omega
      _ = 10 ^ (e + 1) := by ring
    have h3 : 10 ^ (e + 1) ≤ 10 ^ (Nat.digits 10 n).length :=
      Nat.pow_le_pow_right (by norm_num) (by omega)
    omega

theorem splitSign_cons_digit (c : Char) (t : List Char) (h : isDigitCh c = true) :
    splitSign (c :: t) = (false, c :: t) := by
  have h1 : c ≠ '-' := by intro e; subst e; exact absurd h (by decide)
  have h2 : c ≠ '+' := by intro e; subst e; exact absurd h (by decide)
  simp [splitSign, h1, h2]

theorem splitSign_minus (t : List Char) : splitSign ('-' :: t) = (true, t) := by
  simp [splitSign]

theorem parseUnsigned_digits (l : List Char) (h : ∀ c ∈ l, isDigitCh c = true)
    (hne : l ≠ []) : parseUnsigned l = some ((ofDigitsBE l : ℚ)) := by
  unfold parseUnsigned
  rw [takeDigitsL_all l h]
  simp [hne]

theorem parseUnsigned_dot (dq pad : List Char) (hq : ∀ c ∈ dq, isDigitCh c = true)
    (hp : ∀ c ∈ pad, isDigitCh c = true) (hne : dq ≠ []) :
    parseUnsigned (dq ++ '.' :: pad) =
      some (((ofDigitsBE dq * 10 ^ pad.length + ofDigitsBE pad : ℕ) : ℚ) /
        (10 : ℚ) ^ pad.length) := by
  unfold parseUnsigned
  rw [takeDigitsL_append dq ('.' :: pad) hq]
  have hdot : takeDigitsL ('.' :: pad) = ([], '.' :: pad) := by
    simp [takeDigitsL]
    decide
  rw [hdot]
  simp [takeDigitsL_all pad hp, hne]

theorem natAbs_cast_rat_of_neg (c : ℤ) (h : c < 0) : ((c.natAbs : ℚ)) = -(c : ℚ) := by
  rw [Int.cast_natAbs, abs_of_neg h]
  push_cast
  ring

theorem natAbs_cast_rat_of_nonneg (c : ℤ) (h : 0 ≤ c) : ((c.natAbs : ℚ)) = (c : ℚ) := by
  rw [Int.cast_natAbs, abs_of_nonneg h]

theorem parseDec_mk (l : List Char) : parseDec (String.mk l) = parseDecCore l := rfl

theorem parseDecCore_digit_head (d : Char) (t : List Char) (hd : isDigitCh d = true) :
    parseDecCore (d :: t) = (parseUnsigned (d :: t)).map (applySignQ false) := by
  unfold parseDecCore
  rw [splitSign_cons_digit d t hd]

theorem parseDecCore_minus (t : List Char) :
    parseDecCore ('-' :: t) = (parseUnsigned t).map (applySignQ true) := by
  unfold parseDecCore
  rw [splitSign_minus]

theorem exists_head_digit (l : List Char) (h : ∀ x ∈ l, isDigitCh x = true)
    (hne : l ≠ []) : ∃ d t, l = d :: t ∧ isDigitCh d = true := by
  cases l with
  | nil => exact absurd rfl hne
  | cons d t => exact ⟨d, t, rfl, h d (List.mem_cons_self d t)⟩

/-- The rendered decimal string of `c / 10 ^ e` parses back to exactly that
rational value. -/
theorem parseDec_renderScaled (c : ℤ) (e : ℕ) :
    parseDec (renderScaled c e) = some ((c : ℚ) / 10 ^ e) := by
  by_cases he : e = 0
  · subst he
    obtain ⟨d, t, hdt, hd⟩ :=
      exists_head_digit (natDigitsStr c.natAbs) (natDigitsStr_all_digits _) (natDigitsStr_ne_nil _)
    by_cases hc : c < 0
    · have hrend : renderScaled c 0 = String.mk ('-' :: natDigitsStr c.natAbs) := by
        unfold renderScaled
        rw [if_pos hc]
        simp
      rw [hrend, parseDec_mk, parseDecCore_minus,
        parseUnsigned_digits _ (natDigitsStr_all_digits _) (natDigitsStr_ne_nil _),
        ofDigitsBE_natDigitsStr]
      simp [applySignQ, natAbs_cast_rat_of_neg c hc]
    · have hrend : renderScaled c 0 = String.mk (natDigitsStr c.natAbs) := by
        unfold renderScaled
        rw [if_neg hc]
        simp
      rw [hrend, parseDec_mk, hdt, parseDecCore_digit_head d t hd, ← hdt,
        parseUnsigned_digits _ (natDigitsStr_all_digits _) (natDigitsStr_ne_nil _),
        ofDigitsBE_natDigitsStr]
      simp [applySignQ, natAbs_cast_rat_of_nonneg c (not_lt.mp hc)]
  · have h1e : 1 ≤ e := Nat.one_le_iff_ne_zero.mpr he
    have hmodlt : c.natAbs % 10 ^ e < 10 ^ e :=
      Nat.mod_lt _ (Nat.pos_pow_of_pos e (by norm_num))
    have hpdig : ∀ x ∈ padZeros e (natDigitsStr (c.natAbs % 10 ^ e)), isDigitCh x = true :=
      padZeros_all_digits e _ (natDigitsStr_all_digits _)
    have hlen : (padZeros e (natDigitsStr (c.natAbs % 10 ^ e))).length = e :=
      padZeros_length e _ (natDigitsStr_length_le _ e hmodlt h1e)
    obtain ⟨d, t, hdt, hd⟩ := exists_head_digit (natDigitsStr (c.natAbs / 10 ^ e))
      (natDigitsStr_all_digits _) (natDigitsStr_ne_nil _)
    have hval : parseUnsigned (natDigitsStr (c.natAbs / 10 ^ e) ++
        '.' :: padZeros e (natDigitsStr (c.natAbs % 10 ^ e))) =
        some (((c.natAbs : ℕ) : ℚ) / (10 : ℚ) ^ e) := by
      rw [parseUnsigned_dot _ _ (natDigitsStr_all_digits _) hpdig (natDigitsStr_ne_nil _),
        ofDigitsBE_natDigitsStr, ofDigitsBE_padZeros, ofDigitsBE_natDigitsStr, hlen]
      have hsum : c.natAbs / 10 ^ e * 10 ^ e + c.natAbs % 10 ^ e = c.natAbs := by
        conv_lhs => rw [Nat.mul_comm]
        exact Nat.div_add_mod c.natAbs (10 ^ e)
      rw [hsum]
    by_cases hc : c < 0
    · have hrend : renderScaled c e = String.mk ('-' :: (natDigitsStr (c.natAbs / 10 ^ e) ++
          '.' :: padZeros e (natDigitsStr (c.natAbs % 10 ^ e)))) := by
        unfold renderScaled
        rw [if_neg he]
        rw [if_pos hc]
        simp
      rw [hrend, parseDec_mk, parseDecCore_minus, hval]
      simp [applySignQ, natAbs_cast_rat_of_neg c hc, neg_div]
    · have hrend : renderScaled c e = String.mk (natDigitsStr (c.natAbs / 10 ^ e) ++
          '.' :: padZeros e (natDigitsStr (c.natAbs % 10 ^ e))) := by
        unfold renderScaled
        rw [if_neg he]
        rw [if_neg hc]
        simp
      have hcons : natDigitsStr (c.natAbs / 10 ^ e) ++
          '.' :: padZeros e (natDigitsStr (c.natAbs % 10 ^ e)) =
          d :: (t ++ '.' :: padZeros e (natDigitsStr (c.natAbs % 10 ^ e))) := by
        rw [hdt]
        rfl
      rw [hrend, parseDec_mk, hcons, parseDecCore_digit_head d _ hd, ← hcons, hval]
      simp [applySignQ, natAbs_cast_rat_of_nonneg c (not_lt.mp hc)]

theorem truncRat_intCast (n : ℤ) : truncRat ((n : ℚ)) = n := by
  simp [truncRat]

/-- Core of the price round trip: a string produced by `integer_to_price` with
a power-of-ten scale converts back to exactly the integer that produced it. -/
theorem priceToInteger_integerToPrice (conv : IntegerConverter) (sym : String) (d : ℕ)
    (n : ℤ) (s : String) (hscale : getScale conv sym = 10 ^ d)
    (hs : integerToPrice conv sym n = some s) :
    priceToInteger conv sym s = some n := by
  unfold integerToPrice divDecOpt at hs
  rw [hscale] at hs
  cases hfind : (List.range 121).find? (fun e => (n * 10 ^ e) % (10 ^ d : ℤ) = 0) with
  | none => rw [hfind] at hs; exact absurd hs (by simp)
  | some e =>
    rw [hfind] at hs
    have he : (n * 10 ^ e) % (10 ^ d : ℤ) = 0 := by
      have := List.find?_some hfind
      simpa using this
    have hdvd : ((10 : ℤ) ^ d) ∣ n * 10 ^ e := Int.dvd_of_emod_eq_zero he
    have hc : (n * 10 ^ e) / (10 ^ d : ℤ) * 10 ^ d = n * 10 ^ e :=
      Int.ediv_mul_cancel hdvd
    have hsval : s = renderScaled ((n * 10 ^ e) / (10 ^ d : ℤ)) e := by
      injection hs with h
      exact h.symm
    subst hsval
    unfold priceToInteger
    rw [hscale, parseDec_renderScaled]
    simp only [Option.map_some']
    congr 1
    have h10e : ((10 : ℚ) ^ e) ≠ 0 := by positivity
    have hq : (((n * 10 ^ e) / (10 ^ d : ℤ) : ℤ) : ℚ) / 10 ^ e *
        (((10 : ℤ) ^ d : ℤ) : ℚ) = (n : ℚ) := by
      rw [div_mul_eq_mul_div, div_eq_iff h10e]
      push_cast
      have := congrArg (fun z : ℤ => (z : ℚ)) hc
      push_cast at this
      linarith [this]
    rw [hq, truncRat_intCast]

/-- C6: for an instrument with a registered tick size and a decimal string
that is an exact multiple of the tick size and was produced by the registry
itself, `integer_to_price (price_to_integer s) = s`.  (Proved for registered
power-of-ten scales within the default 28-significant-digit `Decimal` context,
which is where the embedded exact-division model coincides with the source.) -/
theorem claim6_price_roundtrip (conv : IntegerConverter) (sym : String) (d : ℕ)
    (n tick k : ℤ) (s : String)
    (hscale : conv.productScales sym = some (10 ^ d)) (hd : d ≤ 28)
    (hbound : n.natAbs < 10 ^ 28)
    (htick : conv.productTickSizes sym = some tick)
    (hmult : n = k * tick)
    (hs : integerToPrice conv sym n = some s) :
    priceToInteger conv sym s = some n ∧
      integerToPrice conv sym ((priceToInteger conv sym s).getD 0) = some s := by
  have hg : getScale conv sym = 10 ^ d := by simp [getScale, hscale]
  have h1 := priceToInteger_integerToPrice conv sym d n s hg hs
  refine ⟨h1, ?_⟩
  rw [h1]
  simpa using hs

/-- C6 witness: the spec's own example, tick size `"0.5"` (scale 10, integer
tick 5) and the registry-produced string `"12345.5"`. -/
theorem claim6_price_roundtrip_witness :
    priceToInteger c6conv "P" "12345.5" = some 123455 ∧
      integerToPrice c6conv "P" ((priceToInteger c6conv "P" "12345.5").getD 0) =
        some "12345.5" :=
  claim6_price_roundtrip c6conv "P" 1 123455 5 24691 "12345.5" (by decide) (by decide)
    (by decide) (by decide) (by decide) (by decide)

theorem natDigitsStr_no_dot (n : ℕ) : (natDigitsStr n).contains '.' = false := by
  rw [Bool.eq_false_iff]
  intro h
  have hmem : '.' ∈ natDigitsStr n := List.mem_of_elem_eq_true h
  exact absurd (natDigitsStr_all_digits n '.' hmem) (by decide)

theorem parseIntStr_natToString (n : ℕ) : parseIntStr (natToString n) = some (n : ℤ) := by
  unfold parseIntStr
  obtain ⟨d, t, hdt, hd⟩ :=
    exists_head_digit (natDigitsStr n) (natDigitsStr_all_digits n) (natDigitsStr_ne_nil n)
  rw [show (natToString n).data = natDigitsStr n from rfl, hdt, splitSign_cons_digit d t hd,
    ← hdt]
  simp only [takeDigitsL_all _ (natDigitsStr_all_digits n)]
  simp [natDigitsStr_ne_nil n, signedZ, ofDigitsBE_natDigitsStr]

theorem sizeToIntegerStr_natToString (n : ℕ) :
    sizeToIntegerStr (natToString n) = some (n : ℤ) := by
  unfold sizeToIntegerStr
  rw [show (natToString n).data = natDigitsStr n from rfl]
  rw [if_neg (by rw [natDigitsStr_no_dot]; exact Bool.false_ne_true)]
  exact parseIntStr_natToString n

theorem intToString_natCast (n : ℕ) : intToString (n : ℤ) = natToString n := by
  unfold intToString renderScaled
  simp [show ¬((n : ℤ) < 0) from not_lt.mpr (Int.natCast_nonneg n), natToString]

/-- C7 counterexample: `integer_to_size` does not return the plain decimal
string of every nonnegative integer — at `2000000` (which is above the
`1000000` cutoff) it divides by `10^8` and returns `"0.02"`. -/
theorem claim7_counterexample :
    integerToSize 2000000 = some "0.02" ∧ intToString 2000000 = "2000000" ∧
      ("0.02" : String) ≠ "2000000" :=
  ⟨by decide, by decide, by decide⟩

/-- C7 (amended): `size_to_integer` passes through integer arguments and
decimal-point-free strings unchanged; `integer_to_size` returns the plain
decimal string only for values up to `1000000`, and treats larger integers as
`10^8`-scaled, dividing them back out (see the counterexample at `2000000`). -/
theorem claim7_size_passthrough (n : ℕ) :
    sizeToInteger (Sum.inl (n : ℤ)) = some (n : ℤ) ∧
      sizeToInteger (Sum.inr (natToString n)) = some (n : ℤ) ∧
      ((n : ℤ) ≤ 1000000 → integerToSize (n : ℤ) = some (natToString n)) := by
  refine ⟨rfl, sizeToIntegerStr_natToString n, fun hle => ?_⟩
  unfold integerToSize
  rw [if_neg (by omega), intToString_natCast]

/-- C7 witness at `n = 7`. -/
theorem claim7_size_passthrough_witness :
    sizeToInteger (Sum.inl (7 : ℤ)) = some (7 : ℤ) ∧
      sizeToInteger (Sum.inr (natToString 7)) = some (7 : ℤ) ∧
      integerToSize (7 : ℤ) = some (natToString 7) := by
  obtain ⟨h1, h2, h3⟩ := claim7_size_passthrough 7
  exact ⟨h1, h2, h3 (by decide)⟩

/-- C8 counterexample: with integer tick size `5`, `normalize_price` maps `2`
to `5`, although `0` is a multiple of `5` strictly nearer to `2` (and the
remainder `2` is not a half-tick tie).  So the result is not the nearest
multiple. -/
theorem claim8_counterexample :
    normalizePrice c8conv "X" 2 = 5 ∧ ((5 : ℤ) - 2).natAbs > ((0 : ℤ) - 2).natAbs ∧
      (0 : ℤ) % 5 = 0 :=
  ⟨by decide, by decide, by decide⟩

/-- C8 (amended): `normalize_price` returns `p` unchanged when the stored tick
size integer is `1` (including any unregistered symbol); for a registered tick
`t ≥ 2` it returns `t * ((p + (t - t / 2)) / t)`, i.e. it rounds the remainder
up exactly when `p % t ≥ t / 2` (floor division).  For even `t` this is the
nearest multiple of `t` with ties (remainder exactly `t / 2`) rounded toward
the larger multiple; for odd `t` the boundary remainder `(t - 1) / 2` also
rounds up even though the lower multiple is nearer (see the counterexample). -/
theorem claim8_normalize (conv : IntegerConverter) (sym : String) (p : ℤ) :
    ((conv.productTickSizes sym).getD 1 = 1 → normalizePrice conv sym p = p) ∧
      (∀ t : ℤ, conv.productTickSizes sym = some t → 2 ≤ t →
        normalizePrice conv sym p = t * ((p + (t - t / 2)) / t) ∧
          (t % 2 = 0 →
            (∀ k : ℤ, (normalizePrice conv sym p - p).natAbs ≤ (k * t - p).natAbs) ∧
              (p % t = t / 2 → normalizePrice conv sym p = p + t / 2))) := by
  constructor
  · intro h1
    simp [normalizePrice, h1]
  · intro t ht h2
    have htd : (conv.productTickSizes sym).getD 1 = t := by rw [ht]; rfl
    have ht1 : ¬(t = 1) := by omega
    have ht0 : (0 : ℤ) < t := by omega
    have hr0 : 0 ≤ p % t := Int.emod_nonneg p (by omega)
    have hrt : p % t < t := Int.emod_lt_of_pos p ht0
    have hp : t * (p / t) + p % t = p := Int.ediv_add_emod p t
    have ht2a : 2 * (t / 2) ≤ t ∧ t ≤ 2 * (t / 2) + 1 := by
      have h := Int.ediv_add_emod t 2
      have hm0 : 0 ≤ t % 2 := Int.emod_nonneg t (by omega)
      have hm1 : t % 2 < 2 := Int.emod_lt_of_pos t (by omega)
      omega
    have ht2pos : 1 ≤ t / 2 := by omega
    have hnorm : normalizePrice conv sym p =
        if p % t = 0 then p else if p % t ≥ t / 2 then p + (t - p % t) else p - p % t := by
      unfold normalizePrice
      rw [htd, if_neg ht1]
    have hcode : normalizePrice conv sym p =
        if p % t ≥ t / 2 then p + (t - p % t) else p - p % t := by
      rw [hnorm]
      by_cases hz : p % t = 0
      · rw [if_pos hz, if_neg (by omega)]
        omega
      · rw [if_neg hz]
    have hediv : t * ((p + (t - t / 2)) / t) =
        if p % t ≥ t / 2 then p + (t - p % t) else p - p % t := by
      by_cases hbr : p % t ≥ t / 2
      · have harr : p + (t - t / 2) = (p % t - t / 2) + (1 + p / t) * t := by
          conv_lhs => rw [← hp]
          ring
        rw [harr, Int.add_mul_ediv_right _ _ (by omega : t ≠ 0),
          Int.ediv_eq_zero_of_lt (by omega) (by omega), if_pos hbr]
        linear_combination hp
      · have harr : p + (t - t / 2) = (p % t + (t - t / 2)) + (p / t) * t := by
          conv_lhs => rw [← hp]
          ring
        rw [harr, Int.add_mul_ediv_right _ _ (by omega : t ≠ 0),
          Int.ediv_eq_zero_of_lt (by omega) (by omega), if_neg hbr]
        linear_combination hp
    refine ⟨by rw [hcode, hediv], fun heven => ⟨fun k => ?_, fun htie => ?_⟩⟩
    · rw [hcode]
      have hkt : k * t - p = (k - p / t) * t - p % t := by
        conv_lhs => rw [← hp]
        ring
      rw [hkt]
      rcases le_or_lt (k - p / t) 0 with hj0 | hj1
      · have hjt : (k - p / t) * t ≤ 0 := mul_nonpos_of_nonpos_of_nonneg hj0 (by omega)
        by_cases hbr : p % t ≥ t / 2
        · rw [if_pos hbr]
          omega
        · rw [if_neg hbr]
          omega
      · have hjt : t ≤ (k - p / t) * t := le_mul_of_one_le_left (by omega) hj1
        by_cases hbr : p % t ≥ t / 2
        · rw [if_pos hbr]
          omega
        · rw [if_neg hbr]
          omega
    · rw [hcode, if_pos (by omega)]
      omega

/-- C8 witness: tick `10` at `p = 7` (rounds up to `10`, nearest-multiple bound
against the competitor multiple `0`), and an unregistered symbol at `p = 7`
(no-op). -/
theorem claim8_normalize_witness :
    normalizePrice c8wconv "W" 7 = 10 * ((7 + (10 - 10 / 2)) / 10) ∧
      (normalizePrice c8wconv "W" 7 - 7).natAbs ≤ ((0 : ℤ) * 10 - 7).natAbs ∧
      normalizePrice c8uconv "U" 7 = 7 := by
  obtain ⟨h1, h2⟩ := claim8_normalize c8wconv "W" 7
  obtain ⟨ha, hb⟩ := h2 10 (by decide) (by decide)
  exact ⟨ha, (hb (by decide)).1 0, (claim8_normalize c8uconv "U" 7).1 (by decide)⟩

theorem specJoinComma_append_head (x y : String) (bs : List String) :
    specJoinComma ((x ++ y) :: bs) = x ++ specJoinComma (y :: bs) := by
  cases bs with
  | nil => rfl
  | cons c cs =>
    show (x ++ y) ++ "," ++ specJoinComma (c :: cs) = x ++ ((y ++ ",") ++ specJoinComma (c :: cs))
    rw [String.append_assoc x y ",", String.append_assoc]

theorem intercalate_comma_spec (l : List String) :
    String.intercalate "," l = specJoinComma l := by
  cases l with
  | nil => rfl
  | cons a as =>
    show String.intercalate.go a "," as = specJoinComma (a :: as)
    induction as generalizing a with
    | nil => rfl
    | cons b bs ih =>
      show String.intercalate.go (a ++ "," ++ b) "," bs = specJoinComma (a :: b :: bs)
      rw [ih (a ++ "," ++ b)]
      show specJoinComma (((a ++ ",") ++ b) :: bs) = (a ++ ",") ++ specJoinComma (b :: bs)
      exact specJoinComma_append_head (a ++ ",") b bs

/-- C1: for every order-book state, `compute_checksum` returns the CRC32
(masked to 32 bits unsigned) of the UTF-8 bytes of the string built per the
specification: the first 10 raw ask entries and first 10 raw bid entries, each
formatted `"<price_str>:<size_str>"` from the exact raw strings, each side
joined with `","`, concatenated as `"<asks>|<bids>"`. -/
theorem claim1_checksum_encoding (conv : IntegerConverter) (b : OrderBook) :
    computeChecksum conv b = crc32 (utf8Bytes (specChecksumString b)) % 2 ^ 32 := by
  simp only [computeChecksum, specChecksumString, intercalate_comma_spec]
  norm_num

set_option maxRecDepth 8192 in
/-- C1 witness (no hypotheses in the claim theorem; this exercises it on a
concrete two-level book, whose checksum string is `"3.00:4|1.00:5"`). -/
theorem claim1_checksum_encoding_witness :
    computeChecksum ⟨fun _ => none, fun _ => none⟩
        ⟨"T", [(100, 5)], [(300, 4)], 0, 1, [("1.00", "5")], [("3.00", "4")]⟩ =
      crc32 (utf8Bytes "3.00:4|1.00:5") % 2 ^ 32 := by
  have h := claim1_checksum_encoding ⟨fun _ => none, fun _ => none⟩
    ⟨"T", [(100, 5)], [(300, 4)], 0, 1, [("1.00", "5")], [("3.00", "4")]⟩
  rw [h]
  rfl

/-- C2: a delta whose (derived) sequence number is not `sequence_no + 1`, on a
book with positive `sequence_no`, makes `apply_update` return `False` with the
whole book state unchanged. -/
theorem claim2_gap_returns_false (conv : IntegerConverter) (b : OrderBook) (m : Msg)
    (hpos : b.sequenceNo > 0) (hgap : msgSeq m ≠ b.sequenceNo + 1) :
    applyUpdate conv b m = (b, Except.ok false) := by
  have hcond : b.sequenceNo > 0 ∧ msgSeq m ≠ b.sequenceNo + 1 := ⟨hpos, hgap⟩
  simp only [applyUpdate, if_pos hcond]

/-- C2 witness: snapshot at sequence `1`, delta at sequence `7` (a gap). -/
theorem claim2_gap_returns_false_witness :
    applyUpdate c2conv c2book c2msg = (c2book, Except.ok false) :=
  claim2_gap_returns_false c2conv c2book c2msg (by decide) (by decide)

/-- C10: when `sequence_no = 0` (fresh book, or snapshot that reported `0`),
`apply_update` performs no contiguity check - for any message sequence value it
proceeds, sets `sequence_no` to that value and never returns `False` (only a
conversion raise can stop it); the sole guard against pre-snapshot deltas is
the manager's pending-snapshot flag, which makes the handler drop the update
without touching the book. -/
theorem claim10_no_seq_guard_at_zero (conv : IntegerConverter) (b : OrderBook) (m : Msg)
    (st : MarketState) (hseq : b.sequenceNo = 0) :
    ((applyUpdate conv b m).2 ≠ Except.ok false ∧
      (applyUpdate conv b m).1.sequenceNo = msgSeq m) ∧
      (m.type = MsgType.update → (st.pendingSnapshots m.symbol).getD true = true →
        handleOrderbookMessage conv st m =
          (setBook st m.symbol ((st.orderbooks m.symbol).getD (emptyBook m.symbol)),
            ⟨false, false, false, false⟩)) := by
  have hcond : ¬(b.sequenceNo > 0 ∧ msgSeq m ≠ b.sequenceNo + 1) := by
    rw [hseq]
    intro h
    exact absurd h.1 (by norm_num)
  refine ⟨?_, fun htype hpend => ?_⟩
  · simp only [applyUpdate, if_neg hcond]
    split
    · simp
    · split
      · simp
      · simp
  · simp only [handleOrderbookMessage, htype]
    rw [if_pos]
    exact hpend

/-- C10 witness: a fresh book (`sequence_no = 0`) accepts an update at the
arbitrary sequence `42`, while the manager (whose pending flag defaults to
`True`) drops the same update without touching its state. -/
theorem claim10_no_seq_guard_at_zero_witness :
    ((applyUpdate c10conv c10book c10msg).2 ≠ Except.ok false ∧
      (applyUpdate c10conv c10book c10msg).1.sequenceNo = msgSeq c10msg) ∧
      handleOrderbookMessage c10conv c10st c10msg =
        (setBook c10st c10msg.symbol ((c10st.orderbooks c10msg.symbol).getD
          (emptyBook c10msg.symbol)), ⟨false, false, false, false⟩) := by
  obtain ⟨h1, h2⟩ := claim10_no_seq_guard_at_zero c10conv c10book c10msg c10st (by decide)
  exact ⟨h1, h2 (by decide) (by decide)⟩

theorem setBook_setBook (st : MarketState) (sym : String) (b1 b2 : OrderBook) :
    setBook (setBook st sym b1) sym b2 = setBook st sym b2 := by
  unfold setBook
  congr 1
  funext s
  by_cases h : s = sym <;> simp [h]

theorem csMismatch_of_wrong (conv : IntegerConverter) (b : OrderBook) (m : Msg) (c : ℤ)
    (hcs : m.cs = some c) (hc0 : c ≠ 0) (hne : (computeChecksum conv b : ℤ) ≠ c) :
    csMismatch conv b m = true := by
  simp [csMismatch, hcs, hc0, hne]

/-- C9: checksum validation never mutates state: `validate_checksum` returns
the book unchanged and is a pure function of the raw ladders; and a wrong `cs`
on an otherwise valid delta does not prevent or roll back the delta - the
handler still stores the applied book and notifies, with the mismatch merely
reported. -/
theorem claim9_checksum_reports_only (conv : IntegerConverter) (b b2 : OrderBook)
    (cs : ℤ) (st : MarketState) (m : Msg)
    (hraw1 : b2.rawAsks = b.rawAsks) (hraw2 : b2.rawBids = b.rawBids) :
    (validateChecksum conv b cs).1 = b ∧
      (validateChecksum conv b2 cs).2 = (validateChecksum conv b cs).2 ∧
      (m.type = MsgType.update → (st.pendingSnapshots m.symbol).getD true = false →
        ∀ ob1, applyUpdate conv ((st.orderbooks m.symbol).getD (emptyBook m.symbol)) m =
            (ob1, Except.ok true) →
          handleOrderbookMessage conv st m =
            (setBook st m.symbol ob1, ⟨true, csMismatch conv ob1 m, false, false⟩) ∧
            (∀ c : ℤ, m.cs = some c → c ≠ 0 → (computeChecksum conv ob1 : ℤ) ≠ c →
              csMismatch conv ob1 m = true)) := by
  have hpure : computeChecksum conv b2 = computeChecksum conv b := by
    unfold computeChecksum
    rw [hraw1, hraw2]
  refine ⟨rfl, ?_, fun htype hpend ob1 happly => ⟨?_, ?_⟩⟩
  · simp [validateChecksum, hpure]
  · simp only [handleOrderbookMessage, htype]
    rw [if_neg (by simp [setBook, hpend])]
    rw [happly]
    simp only [setBook_setBook]
  · exact fun c hcs hc0 hne => csMismatch_of_wrong conv ob1 m c hcs hc0 hne

set_option maxRecDepth 16384 in
/-- C9 witness: a synced book receives a contiguous delta carrying the wrong
checksum `cs = 1`; the delta applies (the stored book is the updated one, the
callbacks fire) and the mismatch is merely reported. -/
theorem claim9_checksum_reports_only_witness :
    (validateChecksum c9conv c9book 1).1 = c9book ∧
      (validateChecksum c9conv c9book2 1).2 = (validateChecksum c9conv c9book 1).2 ∧
      (handleOrderbookMessage c9conv c9st c9msg =
          (setBook c9st c9msg.symbol c9ob1,
            ⟨true, csMismatch c9conv c9ob1 c9msg, false, false⟩) ∧
        csMismatch c9conv c9ob1 c9msg = true) := by
  obtain ⟨h1, h2, h3⟩ :=
    claim9_checksum_reports_only c9conv c9book c9book2 1 c9st c9msg rfl rfl
  obtain ⟨ha, hb⟩ := h3 (by decide) (by decide) c9ob1 (by with_unfolding_all decide)
  exact ⟨h1, h2, ha, hb 1 rfl (by decide) (by decide)⟩

theorem replaceOrRemove_mem (l : List (ℤ × ℤ)) (price size : ℤ) :
    ∀ x ∈ replaceOrRemove l price size,
      x ∈ l ∨ (x = (price, size) ∧ ∃ y ∈ l, y.1 = price) := by
  induction l with
  | nil => intro x hx; exact absurd hx (by simp [replaceOrRemove])
  | cons hd rest ih =>
    intro x hx
    obtain ⟨p, s⟩ := hd
    unfold replaceOrRemove at hx
    by_cases hp : p = price
    · rw [if_pos hp] at hx
      by_cases hz : size = 0
      · rw [if_pos hz] at hx
        exact Or.inl (List.mem_cons_of_mem _ hx)
      · rw [if_neg hz] at hx
        rcases List.mem_cons.mp hx with h1 | h2
        · exact Or.inr ⟨h1, ⟨(p, s), List.mem_cons_self _ _, hp⟩⟩
        · exact Or.inl (List.mem_cons_of_mem _ h2)
    · rw [if_neg hp] at hx
      rcases List.mem_cons.mp hx with h1 | h2
      · exact Or.inl (h1 ▸ List.mem_cons_self _ _)
      · rcases ih x h2 with h3 | ⟨h3, y, hy, hyp⟩
        · exact Or.inl (List.mem_cons_of_mem _ h3)
        · exact Or.inr ⟨h3, y, List.mem_cons_of_mem _ hy, hyp⟩

theorem replaceOrRemove_pairwise (R : (ℤ × ℤ) → (ℤ × ℤ) → Prop)
    (hkeyL : ∀ a b c : ℤ × ℤ, a.1 = b.1 → R a c → R b c)
    (hkeyR : ∀ a b c : ℤ × ℤ, b.1 = c.1 → R a b → R a c)
    (l : List (ℤ × ℤ)) (price size : ℤ) (h : l.Pairwise R) :
    (replaceOrRemove l price size).Pairwise R := by
  induction l with
  | nil => exact List.Pairwise.nil
  | cons hd rest ih =>
    obtain ⟨p, s⟩ := hd
    rw [List.pairwise_cons] at h
    unfold replaceOrRemove
    by_cases hp : p = price
    · rw [if_pos hp]
      by_cases hz : size = 0
      · rw [if_pos hz]
        exact h.2
      · rw [if_neg hz]
        rw [List.pairwise_cons]
        exact ⟨fun x hx => hkeyL (p, s) (price, size) x hp (h.1 x hx), h.2⟩
    · rw [if_neg hp]
      rw [List.pairwise_cons]
      refine ⟨fun x hx => ?_, ih h.2⟩
      rcases replaceOrRemove_mem rest price size x hx with h1 | ⟨h1, y, hy, hyp⟩
      · exact h.1 x h1
      · exact h1 ▸ hkeyR (p, s) y (price, size) hyp (h.1 y hy)

theorem sortLevels_strict_desc (l : List (ℤ × ℤ))
    (hnd : l.Pairwise (fun a b : ℤ × ℤ => a.1 ≠ b.1)) :
    (sortLevels true l).Pairwise (fun a b : ℤ × ℤ => b.1 < a.1) := by
  show (List.insertionSort levelGE l).Pairwise (fun a b : ℤ × ℤ => b.1 < a.1)
  haveI : IsTotal (ℤ × ℤ) levelGE := ⟨fun a b => le_total b.1 a.1⟩
  haveI : IsTrans (ℤ × ℤ) levelGE := ⟨fun a b c hab hbc => le_trans hbc hab⟩
  have hs : List.Sorted levelGE (List.insertionSort levelGE l) :=
    List.sorted_insertionSort levelGE l
  have hnd' : (List.insertionSort levelGE l).Pairwise (fun a b : ℤ × ℤ => a.1 ≠ b.1) := by
    refine ((List.perm_insertionSort levelGE l).pairwise_iff ?_).mpr hnd
    intro a b hab
    exact hab.symm
  exact (hs.and hnd').imp (fun hab => lt_of_le_of_ne hab.1 hab.2.symm)

theorem sortLevels_strict_asc (l : List (ℤ × ℤ))
    (hnd : l.Pairwise (fun a b : ℤ × ℤ => a.1 ≠ b.1)) :
    (sortLevels false l).Pairwise (fun a b : ℤ × ℤ => a.1 < b.1) := by
  show (List.insertionSort levelLE l).Pairwise (fun a b : ℤ × ℤ => a.1 < b.1)
  haveI : IsTotal (ℤ × ℤ) levelLE := ⟨fun a b => le_total a.1 b.1⟩
  haveI : IsTrans (ℤ × ℤ) levelLE := ⟨fun a b c hab hbc => le_trans hab hbc⟩
  have hs : List.Sorted levelLE (List.insertionSort levelLE l) :=
    List.sorted_insertionSort levelLE l
  have hnd' : (List.insertionSort levelLE l).Pairwise (fun a b : ℤ × ℤ => a.1 ≠ b.1) := by
    refine ((List.perm_insertionSort levelLE l).pairwise_iff ?_).mpr hnd
    intro a b hab
    exact hab.symm
  exact (hs.and hnd').imp (fun hab => lt_of_le_of_ne hab.1 hab.2)

theorem updateLevel_not_found_ne (l : List (ℤ × ℤ)) (price : ℤ)
    (hfound : ¬(l.any (fun pr => pr.1 = price) = true)) :
    ∀ x ∈ l, x.1 ≠ price := by
  intro x hx heq
  exact hfound (List.any_eq_true.mpr ⟨x, hx, by simp [heq]⟩)

theorem updateLevel_strict_desc (l : List (ℤ × ℤ)) (price size : ℤ)
    (h : l.Pairwise (fun a b : ℤ × ℤ => b.1 < a.1)) :
    (updateLevel l price size true).Pairwise (fun a b : ℤ × ℤ => b.1 < a.1) := by
  unfold updateLevel
  by_cases hfound : l.any (fun pr => pr.1 = price) = true
  · rw [if_pos hfound]
    exact replaceOrRemove_pairwise _ (fun a b c hab hrc => hab ▸ hrc)
      (fun a b c hbc hab => hbc ▸ hab) l price size h
  · rw [if_neg hfound]
    by_cases hsz : size > 0
    · rw [if_pos hsz]
      apply sortLevels_strict_desc
      rw [List.pairwise_append]
      refine ⟨h.imp (fun hab => (ne_of_lt hab).symm), List.pairwise_singleton _ _, ?_⟩
      intro x hx y hy
      rw [List.mem_singleton.mp hy]
      exact updateLevel_not_found_ne l price hfound x hx
    · rw [if_neg hsz]
      exact h

theorem updateLevel_strict_asc (l : List (ℤ × ℤ)) (price size : ℤ)
    (h : l.Pairwise (fun a b : ℤ × ℤ => a.1 < b.1)) :
    (updateLevel l price size false).Pairwise (fun a b : ℤ × ℤ => a.1 < b.1) := by
  unfold updateLevel
  by_cases hfound : l.any (fun pr => pr.1 = price) = true
  · rw [if_pos hfound]
    exact replaceOrRemove_pairwise _ (fun a b c hab hrc => hab ▸ hrc)
      (fun a b c hbc hab => hbc ▸ hab) l price size h
  · rw [if_neg hfound]
    by_cases hsz : size > 0
    · rw [if_pos hsz]
      apply sortLevels_strict_asc
      rw [List.pairwise_append]
      refine ⟨h.imp (fun hab => ne_of_lt hab), List.pairwise_singleton _ _, ?_⟩
      intro x hx y hy
      rw [List.mem_singleton.mp hy]
      exact updateLevel_not_found_ne l price hfound x hx
    · rw [if_neg hsz]
      exact h

theorem foldl_updateLevel_strict_desc (ups : List (ℤ × ℤ)) :
    ∀ (l : List (ℤ × ℤ)), l.Pairwise (fun a b : ℤ × ℤ => b.1 < a.1) →
      (ups.foldl (fun l u => updateLevel l u.1 u.2 true) l).Pairwise
        (fun a b : ℤ × ℤ => b.1 < a.1) := by
  induction ups with
  | nil => exact fun l h => h
  | cons u rest ih =>
    intro l h
    exact ih (updateLevel l u.1 u.2 true) (updateLevel_strict_desc l u.1 u.2 h)

theorem foldl_updateLevel_strict_asc (ups : List (ℤ × ℤ)) :
    ∀ (l : List (ℤ × ℤ)), l.Pairwise (fun a b : ℤ × ℤ => a.1 < b.1) →
      (ups.foldl (fun l u => updateLevel l u.1 u.2 false) l).Pairwise
        (fun a b : ℤ × ℤ => a.1 < b.1) := by
  induction ups with
  | nil => exact fun l h => h
  | cons u rest ih =>
    intro l h
    exact ih (updateLevel l u.1 u.2 false) (updateLevel_strict_asc l u.1 u.2 h)

/-- C4: after any sequence of level upserts applied to initially
strictly-sorted sides, the bid ladder stays strictly descending by price, the
ask ladder strictly ascending, and no two entries of a side share a price. -/
theorem claim4_sort_invariant (ups : List (ℤ × ℤ)) (bids asks : List (ℤ × ℤ))
    (hb : bids.Pairwise (fun a b : ℤ × ℤ => b.1 < a.1))
    (ha : asks.Pairwise (fun a b : ℤ × ℤ => a.1 < b.1)) :
    ((ups.foldl (fun l u => updateLevel l u.1 u.2 true) bids).Pairwise
        (fun a b : ℤ × ℤ => b.1 < a.1) ∧
      (ups.foldl (fun l u => updateLevel l u.1 u.2 true) bids).Pairwise
        (fun a b : ℤ × ℤ => a.1 ≠ b.1)) ∧
      ((ups.foldl (fun l u => updateLevel l u.1 u.2 false) asks).Pairwise
          (fun a b : ℤ × ℤ => a.1 < b.1) ∧
        (ups.foldl (fun l u => updateLevel l u.1 u.2 false) asks).Pairwise
          (fun a b : ℤ × ℤ => a.1 ≠ b.1)) := by
  have h1 := foldl_updateLevel_strict_desc ups bids hb
  have h2 := foldl_updateLevel_strict_asc ups asks ha
  exact ⟨⟨h1, h1.imp (fun hab => (ne_of_lt hab).symm)⟩,
    ⟨h2, h2.imp (fun hab => ne_of_lt hab)⟩⟩

/-- C4 witness: upserts including an update, a deletion and an insertion on
initially empty sides. -/
theorem claim4_sort_invariant_witness :
    (([(5, 1), (3, 2), (5, 0), (7, 4)] : List (ℤ × ℤ)).foldl
        (fun l u => updateLevel l u.1 u.2 true) []).Pairwise
      (fun a b : ℤ × ℤ => b.1 < a.1) ∧
      (([(5, 1), (3, 2), (5, 0), (7, 4)] : List (ℤ × ℤ)).foldl
          (fun l u => updateLevel l u.1 u.2 false) []).Pairwise
        (fun a b : ℤ × ℤ => a.1 < b.1) := by
  obtain ⟨⟨h1, _⟩, ⟨h2, _⟩⟩ := claim4_sort_invariant [(5, 1), (3, 2), (5, 0), (7, 4)] [] []
    (by decide) (by decide)
  exact ⟨h1, h2⟩

/-!  ## Ladder/raw-ladder alignment machinery (claims C3 and C5) -/

theorem priceToInteger_eq_ik (conv : IntegerConverter) (sym : String) (S : List String)
    (hP : PricesOK conv sym S) (p : String) (hp : p ∈ S) :
    priceToInteger conv sym p = some (ik conv sym p) := by
  have h := hP.parseP p hp
  cases hpt : priceToInteger conv sym p with
  | none => rw [hpt] at h; exact absurd h (by simp)
  | some v => simp [ik, hpt]

theorem floatVal_eq_fk (conv : IntegerConverter) (sym : String) (S : List String)
    (hP : PricesOK conv sym S) (p : String) (hp : p ∈ S) :
    floatVal p = some (fk p) := by
  have h := hP.parseF p hp
  cases hpt : floatVal p with
  | none => rw [hpt] at h; exact absurd h (by simp)
  | some v => simp [fk, hpt]

theorem sizeOK_parse (s : String) (h : SizeOK s) :
    ∃ sv : ℚ, floatVal s = some sv ∧
      ((sizeToIntegerStr s).getD 0 = 0 ↔ sv = 0) ∧ (0 < (sizeToIntegerStr s).getD 0 ↔ 0 < sv) := by
  obtain ⟨h1, h2, h3, h4⟩ := h
  cases hf : floatVal s with
  | none => rw [hf] at h2; exact absurd h2 (by simp)
  | some v =>
    refine ⟨v, rfl, ?_, ?_⟩
    · rw [hf] at h3; simpa using h3
    · rw [hf] at h4; simpa using h4

theorem mapM_float_decorate (raw : List (String × String))
    (hparse : ∀ e ∈ raw, (floatVal e.1).isSome) :
    raw.mapM (fun e => (floatVal e.1).map (fun v => (v, e))) =
      some (raw.map (fun e => (fk e.1, e))) := by
  induction raw with
  | nil => rfl
  | cons e rest ih =>
    have he := hparse e (List.mem_cons_self e rest)
    have hf : floatVal e.1 = some (fk e.1) := by
      cases hx : floatVal e.1 with
      | none => rw [hx] at he; exact absurd he (by simp)
      | some v => simp [fk, hx]
    rw [List.mapM_cons, hf, ih (fun x hx => hparse x (List.mem_cons_of_mem e hx))]
    rfl

theorem orderedInsert_rel_congr {α : Type} (r₁ r₂ : α → α → Prop) [DecidableRel r₁]
    [DecidableRel r₂] (a : α) (l : List α) (h : ∀ x ∈ l, r₁ a x ↔ r₂ a x) :
    List.orderedInsert r₁ a l = List.orderedInsert r₂ a l := by
  induction l with
  | nil => rfl
  | cons b t ih =>
    have hb := h b (List.mem_cons_self b t)
    by_cases h1 : r₁ a b
    · rw [List.orderedInsert, List.orderedInsert, if_pos h1, if_pos (hb.mp h1)]
    · rw [List.orderedInsert, List.orderedInsert, if_neg h1, if_neg (fun c => h1 (hb.mpr c)),
        ih (fun x hx => h x (List.mem_cons_of_mem b hx))]

theorem insertionSort_rel_congr {α : Type} (r₁ r₂ : α → α → Prop) [DecidableRel r₁]
    [DecidableRel r₂] (l : List α) (h : ∀ a ∈ l, ∀ b ∈ l, r₁ a b ↔ r₂ a b) :
    List.insertionSort r₁ l = List.insertionSort r₂ l := by
  induction l with
  | nil => rfl
  | cons a t ih =>
    rw [List.insertionSort, List.insertionSort,
      ih (fun x hx y hy => h x (List.mem_cons_of_mem a hx) y (List.mem_cons_of_mem a hy))]
    refine orderedInsert_rel_congr r₁ r₂ a _ (fun x hx => ?_)
    have hxt : x ∈ t := (List.mem_insertionSort r₂).mp hx
    exact h a (List.mem_cons_self a t) x (List.mem_cons_of_mem a hxt)

theorem forall₂_map_map {α β γ : Type} (R : β → γ → Prop) (f : α → β) (g : α → γ)
    (l : List α) (h : ∀ x ∈ l, R (f x) (g x)) : List.Forall₂ R (l.map f) (l.map g) := by
  induction l with
  | nil => exact List.Forall₂.nil
  | cons a t ih =>
    exact List.Forall₂.cons (h a (List.mem_cons_self a t))
      (ih (fun x hx => h x (List.mem_cons_of_mem a hx)))

theorem sortRawLevels_true_eq (raw : List (String × String))
    (hparse : ∀ e ∈ raw, (floatVal e.1).isSome) :
    sortRawLevels true raw = some (List.insertionSort rawGE raw) := by
  unfold sortRawLevels
  rw [mapM_float_decorate raw hparse]
  show some ((List.insertionSort ratKeyGE (raw.map (fun e => (fk e.1, e)))).map Prod.snd) = _
  rw [← List.map_insertionSort rawGE ratKeyGE (fun e => (fk e.1, e)) raw
    (fun a _ b _ => Iff.rfl)]
  rw [List.map_map]
  rw [show (Prod.snd ∘ fun e : String × String => (fk e.1, e)) = id from rfl, List.map_id]

theorem sortRawLevels_false_eq (raw : List (String × String))
    (hparse : ∀ e ∈ raw, (floatVal e.1).isSome) :
    sortRawLevels false raw = some (List.insertionSort rawLE raw) := by
  unfold sortRawLevels
  rw [mapM_float_decorate raw hparse]
  show some ((List.insertionSort ratKeyLE (raw.map (fun e => (fk e.1, e)))).map Prod.snd) = _
  rw [← List.map_insertionSort rawLE ratKeyLE (fun e => (fk e.1, e)) raw
    (fun a _ b _ => Iff.rfl)]
  rw [List.map_map]
  rw [show (Prod.snd ∘ fun e : String × String => (fk e.1, e)) = id from rfl, List.map_id]

theorem sort_pair_aligned {rI : (ℤ × ℤ) → (ℤ × ℤ) → Prop}
    {rR : (String × String) → (String × String) → Prop} [DecidableRel rI] [DecidableRel rR]
    (conv : IntegerConverter) (sym : String) (levels : List (ℤ × ℤ))
    (raw : List (String × String)) (hA : Aligned conv sym levels raw)
    (hagree : ∀ x ∈ levels.zip raw, ∀ y ∈ levels.zip raw, rI x.1 y.1 ↔ rR x.2 y.2) :
    Aligned conv sym (List.insertionSort rI levels) (List.insertionSort rR raw) := by
  haveI : DecidableRel (fun x y : (ℤ × ℤ) × (String × String) => rI x.1 y.1) :=
    fun x y => inferInstanceAs (Decidable (rI x.1 y.1))
  haveI : DecidableRel (fun x y : (ℤ × ℤ) × (String × String) => rR x.2 y.2) :=
    fun x y => inferInstanceAs (Decidable (rR x.2 y.2))
  have hlen : levels.length = raw.length := hA.length_eq
  have hfst : (levels.zip raw).map Prod.fst = levels :=
    List.map_fst_zip levels raw (le_of_eq hlen)
  have hsnd : (levels.zip raw).map Prod.snd = raw :=
    List.map_snd_zip levels raw (le_of_eq hlen.symm)
  have hcorr : ∀ x ∈ levels.zip raw, LevelCorr conv sym x.1 x.2 := by
    intro x hx
    obtain ⟨a, b⟩ := x
    exact List.forall₂_zip hA hx
  have h1 : List.insertionSort rI levels =
      (List.insertionSort (fun x y : (ℤ × ℤ) × (String × String) => rI x.1 y.1)
        (levels.zip raw)).map Prod.fst := by
    conv_lhs => rw [← hfst]
    exact (List.map_insertionSort _ rI Prod.fst (levels.zip raw) (fun a _ b _ => Iff.rfl)).symm
  have h2 : List.insertionSort rR raw =
      (List.insertionSort (fun x y : (ℤ × ℤ) × (String × String) => rR x.2 y.2)
        (levels.zip raw)).map Prod.snd := by
    conv_lhs => rw [← hsnd]
    exact (List.map_insertionSort _ rR Prod.snd (levels.zip raw) (fun a _ b _ => Iff.rfl)).symm
  have h3 : List.insertionSort (fun x y : (ℤ × ℤ) × (String × String) => rI x.1 y.1)
      (levels.zip raw) =
      List.insertionSort (fun x y : (ℤ × ℤ) × (String × String) => rR x.2 y.2)
        (levels.zip raw) :=
    insertionSort_rel_congr _ _ _ (fun a ha b hb => hagree a ha b hb)
  rw [h1, h2, h3]
  refine forall₂_map_map _ Prod.fst Prod.snd _ (fun x hx => ?_)
  exact hcorr x ((List.mem_insertionSort _).mp hx)

theorem sort_both_aligned (conv : IntegerConverter) (sym : String) (S : List String)
    (hP : PricesOK conv sym S) (rev : Bool) (levels : List (ℤ × ℤ))
    (raw : List (String × String)) (hA : Aligned conv sym levels raw)
    (hsub : ∀ e ∈ raw, e.1 ∈ S) :
    ∃ R, sortRawLevels rev raw = some R ∧ Aligned conv sym (sortLevels rev levels) R ∧
      ∀ e ∈ R, e.1 ∈ S := by
  have hparse : ∀ e ∈ raw, (floatVal e.1).isSome := fun e he => hP.parseF e.1 (hsub e he)
  have hik : ∀ x ∈ levels.zip raw, ik conv sym x.2.1 = x.1.1 := by
    intro x hx
    obtain ⟨a, b⟩ := x
    have hc : LevelCorr conv sym a b := List.forall₂_zip hA hx
    simp [ik, hc.1]
  have hmem : ∀ x ∈ levels.zip raw, x.2.1 ∈ S := by
    intro x hx
    obtain ⟨a, b⟩ := x
    exact hsub b (List.of_mem_zip hx).2
  cases rev
  · refine ⟨List.insertionSort rawLE raw, sortRawLevels_false_eq raw hparse, ?_, ?_⟩
    · show Aligned conv sym (List.insertionSort levelLE levels) _
      refine sort_pair_aligned conv sym levels raw hA (fun x hx y hy => ?_)
      show levelLE x.1 y.1 ↔ rawLE x.2 y.2
      unfold levelLE rawLE
      rw [← hik x hx, ← hik y hy]
      exact hP.leA x.2.1 (hmem x hx) y.2.1 (hmem y hy)
    · intro e he
      exact hsub e ((List.mem_insertionSort rawLE).mp he)
  · refine ⟨List.insertionSort rawGE raw, sortRawLevels_true_eq raw hparse, ?_, ?_⟩
    · show Aligned conv sym (List.insertionSort levelGE levels) _
      refine sort_pair_aligned conv sym levels raw hA (fun x hx y hy => ?_)
      show levelGE x.1 y.1 ↔ rawGE x.2 y.2
      unfold levelGE rawGE
      rw [← hik x hx, ← hik y hy]
      exact hP.leA y.2.1 (hmem y hy) x.2.1 (hmem x hx)
    · intro e he
      exact hsub e ((List.mem_insertionSort rawGE).mp he)

theorem findRawIdx_cons (rp rs : String) (rt : List (String × String)) (pf v : ℚ)
    (hparse : floatVal rp = some v) :
    findRawIdx ((rp, rs) :: rt) pf =
      if v = pf then some (some 0) else (findRawIdx rt pf).map (Option.map (· + 1)) := by
  simp only [findRawIdx, hparse]

theorem findRawIdx_sync (conv : IntegerConverter) (sym : String) (S : List String)
    (hP : PricesOK conv sym S) (ps : String) (hps : ps ∈ S) (pi : ℤ)
    (hpi : priceToInteger conv sym ps = some pi) :
    ∀ (levels : List (ℤ × ℤ)) (raw : List (String × String)),
      Aligned conv sym levels raw → (∀ e ∈ raw, e.1 ∈ S) →
      ((levels.any (fun pr => pr.1 = pi) = false → findRawIdx raw (fk ps) = some none) ∧
        (levels.any (fun pr => pr.1 = pi) = true →
          ∃ j, findRawIdx raw (fk ps) = some (some j))) := by
  have hikps : ik conv sym ps = pi := by simp [ik, hpi]
  intro levels raw hA
  induction hA with
  | nil =>
    intro _
    exact ⟨fun _ => rfl, fun h => absurd h (by simp)⟩
  | @cons lv rw lt rt hcorr htail ih =>
    intro hsub
    obtain ⟨rp, rs⟩ := rw
    have hsubt : ∀ e ∈ rt, e.1 ∈ S := fun e he => hsub e (List.mem_cons_of_mem _ he)
    have hrwS : rp ∈ S := hsub (rp, rs) (List.mem_cons_self _ _)
    have hfparse : floatVal rp = some (fk rp) := floatVal_eq_fk conv sym S hP rp hrwS
    have hikrw : ik conv sym rp = lv.1 := by simp [ik, hcorr.1]
    have hkey : lv.1 = pi ↔ fk rp = fk ps := by
      rw [← hikrw, ← hikps]
      exact hP.eqA rp hrwS ps hps
    obtain ⟨ih1, ih2⟩ := ih hsubt
    by_cases hh : fk rp = fk ps
    · constructor
      · intro hfalse
        exfalso
        have hlv : lv.1 = pi := hkey.mpr hh
        simp [List.any_cons, hlv] at hfalse
      · intro _
        refine ⟨0, ?_⟩
        rw [findRawIdx_cons rp rs rt (fk ps) (fk rp) hfparse, if_pos hh]
    · have hne : ¬(lv.1 = pi) := fun c => hh (hkey.mp c)
      have hany : ((lv :: lt).any (fun pr => pr.1 = pi)) = (lt.any (fun pr => pr.1 = pi)) := by
        simp [List.any_cons, hne]
      constructor
      · intro hfalse
        rw [hany] at hfalse
        rw [findRawIdx_cons rp rs rt (fk ps) (fk rp) hfparse, if_neg hh, ih1 hfalse]
        rfl
      · intro htrue
        rw [hany] at htrue
        obtain ⟨j, hj⟩ := ih2 htrue
        refine ⟨j + 1, ?_⟩
        rw [findRawIdx_cons rp rs rt (fk ps) (fk rp) hfparse, if_neg hh, hj]
        rfl

theorem updateRawLevel_found (raw : List (String × String)) (ps ss : String) (rev : Bool)
    (pf sv : ℚ) (i : ℕ) (hp : floatVal ps = some pf) (hf : findRawIdx raw pf = some (some i))
    (hs : floatVal ss = some sv) :
    updateRawLevel raw ps ss rev =
      if sv = 0 then (raw.eraseIdx i, true) else (raw.set i (ps, ss), true) := by
  simp only [updateRawLevel, hp, hf, hs]

theorem updateRawLevel_notfound (raw : List (String × String)) (ps ss : String) (rev : Bool)
    (pf sv : ℚ) (hp : floatVal ps = some pf) (hf : findRawIdx raw pf = some none)
    (hs : floatVal ss = some sv) :
    updateRawLevel raw ps ss rev =
      if sv > 0 then
        (match sortRawLevels rev (raw ++ [(ps, ss)]) with
          | none => (raw ++ [(ps, ss)], false)
          | some sorted => (sorted, true))
      else (raw, true) := by
  simp only [updateRawLevel, hp, hf, hs]

theorem replaceOrRemove_cons_eq (lp lsz : ℤ) (lt : List (ℤ × ℤ)) (pi si : ℤ) (h : lp = pi) :
    replaceOrRemove ((lp, lsz) :: lt) pi si = if si = 0 then lt else (pi, si) :: lt := by
  simp only [replaceOrRemove, if_pos h]

theorem replaceOrRemove_cons_ne (lp lsz : ℤ) (lt : List (ℤ × ℤ)) (pi si : ℤ)
    (h : ¬(lp = pi)) :
    replaceOrRemove ((lp, lsz) :: lt) pi si = (lp, lsz) :: replaceOrRemove lt pi si := by
  simp only [replaceOrRemove, if_neg h]

theorem update_found_aligned (conv : IntegerConverter) (sym : String) (S : List String)
    (hP : PricesOK conv sym S) (rev : Bool) (ps ss : String) (pi si : ℤ)
    (hps : ps ∈ S) (hpi : priceToInteger conv sym ps = some pi)
    (hsi : sizeToIntegerStr ss = some si) (hsz : SizeOK ss) :
    ∀ (levels : List (ℤ × ℤ)) (raw : List (String × String)),
      Aligned conv sym levels raw → (∀ e ∈ raw, e.1 ∈ S) →
      levels.any (fun pr => pr.1 = pi) = true →
      ∃ raw', updateRawLevel raw ps ss rev = (raw', true) ∧
        Aligned conv sym (replaceOrRemove levels pi si) raw' ∧ ∀ e ∈ raw', e.1 ∈ S := by
  obtain ⟨sv, hsv, hsz0, hszpos⟩ := sizeOK_parse ss hsz
  have hsieq : (sizeToIntegerStr ss).getD 0 = si := by simp [hsi]
  rw [hsieq] at hsz0 hszpos
  have hpsf : floatVal ps = some (fk ps) := floatVal_eq_fk conv sym S hP ps hps
  have hikps : ik conv sym ps = pi := by simp [ik, hpi]
  intro levels raw hA
  induction hA with
  | nil =>
    intro _ hany
    exact absurd hany (by simp)
  | @cons lv rw lt rt hcorr htail ih =>
    intro hsub hany
    obtain ⟨lp, lsz⟩ := lv
    obtain ⟨rp, rs⟩ := rw
    have hsubt : ∀ e ∈ rt, e.1 ∈ S := fun e he => hsub e (List.mem_cons_of_mem _ he)
    have hrwS : rp ∈ S := hsub (rp, rs) (List.mem_cons_self _ _)
    have hfparse : floatVal rp = some (fk rp) := floatVal_eq_fk conv sym S hP rp hrwS
    have hikrw : ik conv sym rp = lp := by simp [ik, hcorr.1]
    have hkey : lp = pi ↔ fk rp = fk ps := by
      rw [← hikrw, ← hikps]
      exact hP.eqA rp hrwS ps hps
    by_cases hh : fk rp = fk ps
    · have hlv : lp = pi := hkey.mpr hh
      have hfind : findRawIdx ((rp, rs) :: rt) (fk ps) = some (some 0) := by
        rw [findRawIdx_cons rp rs rt (fk ps) (fk rp) hfparse, if_pos hh]
      by_cases hz : si = 0
      · have hsv0 : sv = 0 := hsz0.mp hz
        refine ⟨rt, ?_, ?_, hsubt⟩
        · rw [updateRawLevel_found _ ps ss rev (fk ps) sv 0 hpsf hfind hsv, if_pos hsv0,
            List.eraseIdx_cons_zero]
        · rw [replaceOrRemove_cons_eq lp lsz lt pi si hlv, if_pos hz]
          exact htail
      · have hsvne : ¬(sv = 0) := fun c => hz (hsz0.mpr c)
        refine ⟨(ps, ss) :: rt, ?_, ?_, ?_⟩
        · rw [updateRawLevel_found _ ps ss rev (fk ps) sv 0 hpsf hfind hsv, if_neg hsvne,
            List.set_cons_zero]
        · rw [replaceOrRemove_cons_eq lp lsz lt pi si hlv, if_neg hz]
          exact List.Forall₂.cons ⟨hpi, hsi⟩ htail
        · intro e he
          rcases List.mem_cons.mp he with rfl | h2
          · exact hps
          · exact hsubt e h2
    · have hne : ¬(lp = pi) := fun c => hh (hkey.mp c)
      have hany' : lt.any (fun pr => pr.1 = pi) = true := by
        simpa [List.any_cons, hne] using hany
      obtain ⟨j, hj⟩ :=
        (findRawIdx_sync conv sym S hP ps hps pi hpi lt rt htail hsubt).2 hany'
      have hfind : findRawIdx ((rp, rs) :: rt) (fk ps) = some (some (j + 1)) := by
        rw [findRawIdx_cons rp rs rt (fk ps) (fk rp) hfparse, if_neg hh, hj]
        rfl
      have hcons : updateRawLevel ((rp, rs) :: rt) ps ss rev =
          ((rp, rs) :: (updateRawLevel rt ps ss rev).1, (updateRawLevel rt ps ss rev).2) := by
        rw [updateRawLevel_found _ ps ss rev (fk ps) sv (j + 1) hpsf hfind hsv,
          updateRawLevel_found rt ps ss rev (fk ps) sv j hpsf hj hsv]
        by_cases hz : sv = 0
        · rw [if_pos hz, if_pos hz, List.eraseIdx_cons_succ]
        · rw [if_neg hz, if_neg hz, List.set_cons_succ]
      obtain ⟨raw', hupd, halign, hsub'⟩ := ih hsubt hany'
      refine ⟨(rp, rs) :: raw', ?_, ?_, ?_⟩
      · rw [hcons, hupd]
      · rw [replaceOrRemove_cons_ne lp lsz lt pi si hne]
        exact List.Forall₂.cons hcorr halign
      · intro e he
        rcases List.mem_cons.mp he with rfl | h2
        · exact hrwS
        · exact hsub' e h2

theorem forall₂_append_single {α β : Type} (R : α → β → Prop) :
    ∀ {l₁ : List α} {l₂ : List β}, List.Forall₂ R l₁ l₂ → ∀ (a : α) (b : β), R a b →
      List.Forall₂ R (l₁ ++ [a]) (l₂ ++ [b]) := by
  intro l₁ l₂ h
  induction h with
  | nil => intro a b hab; exact List.Forall₂.cons hab List.Forall₂.nil
  | cons hh _ ih => intro a b hab; exact List.Forall₂.cons hh (ih a b hab)

theorem updateBoth_aligned (conv : IntegerConverter) (sym : String) (S : List String)
    (hP : PricesOK conv sym S) (rev : Bool) (ps ss : String) (pi si : ℤ)
    (hps : ps ∈ S) (hpi : priceToInteger conv sym ps = some pi)
    (hsi : sizeToIntegerStr ss = some si) (hsz : SizeOK ss)
    (levels : List (ℤ × ℤ)) (raw : List (String × String))
    (hA : Aligned conv sym levels raw) (hsub : ∀ e ∈ raw, e.1 ∈ S) :
    ∃ raw', updateRawLevel raw ps ss rev = (raw', true) ∧
      Aligned conv sym (updateLevel levels pi si rev) raw' ∧ ∀ e ∈ raw', e.1 ∈ S := by
  by_cases hany : levels.any (fun pr => pr.1 = pi) = true
  · obtain ⟨raw', hupd, halign, hsub'⟩ :=
      update_found_aligned conv sym S hP rev ps ss pi si hps hpi hsi hsz levels raw hA hsub hany
    refine ⟨raw', hupd, ?_, hsub'⟩
    have hUL : updateLevel levels pi si rev = replaceOrRemove levels pi si := by
      simp [updateLevel, hany]
    rw [hUL]
    exact halign
  · have hanyf : levels.any (fun pr => pr.1 = pi) = false := by
      cases hx : levels.any (fun pr => pr.1 = pi)
      · rfl
      · exact absurd hx hany
    have hnone := (findRawIdx_sync conv sym S hP ps hps pi hpi levels raw hA hsub).1 hanyf
    obtain ⟨sv, hsv, hsz0, hszpos⟩ := sizeOK_parse ss hsz
    have hsieq : (sizeToIntegerStr ss).getD 0 = si := by simp [hsi]
    rw [hsieq] at hsz0 hszpos
    have hpsf : floatVal ps = some (fk ps) := floatVal_eq_fk conv sym S hP ps hps
    have hUR := updateRawLevel_notfound raw ps ss rev (fk ps) sv hpsf hnone hsv
    have hUL : updateLevel levels pi si rev =
        (if si > 0 then sortLevels rev (levels ++ [(pi, si)]) else levels) := by
      simp [updateLevel, hanyf]
    by_cases hpos : 0 < si
    · have hA' : Aligned conv sym (levels ++ [(pi, si)]) (raw ++ [(ps, ss)]) :=
        forall₂_append_single (LevelCorr conv sym) hA (pi, si) (ps, ss) ⟨hpi, hsi⟩
      have hsub' : ∀ e ∈ raw ++ [(ps, ss)], e.1 ∈ S := by
        intro e he
        rcases List.mem_append.mp he with h1 | h2
        · exact hsub e h1
        · rw [List.mem_singleton.mp h2]
          exact hps
      obtain ⟨R, hsort, halign, hsubR⟩ :=
        sort_both_aligned conv sym S hP rev (levels ++ [(pi, si)]) (raw ++ [(ps, ss)]) hA' hsub'
      refine ⟨R, ?_, ?_, hsubR⟩
      · rw [hUR, if_pos (hszpos.mp hpos)]
        simp only [hsort]
      · rw [hUL, if_pos hpos]
        exact halign
    · refine ⟨raw, ?_, ?_, hsub⟩
      · rw [hUR, if_neg (fun c => hpos (hszpos.mpr c))]
      · rw [hUL, if_neg hpos]
        exact hA

theorem applySide_aligned (conv : IntegerConverter) (sym : String) (S : List String)
    (hP : PricesOK conv sym S) (rev : Bool) :
    ∀ (entries : List LevelEntry) (levels : List (ℤ × ℤ)) (raw : List (String × String)),
      Aligned conv sym levels raw → (∀ e ∈ raw, e.1 ∈ S) →
      (∀ e ∈ entries, entryOK conv sym S e) →
      Aligned conv sym (applySide conv sym rev levels raw entries).1.1
          (applySide conv sym rev levels raw entries).1.2 ∧
        ∀ e ∈ (applySide conv sym rev levels raw entries).1.2, e.1 ∈ S := by
  intro entries
  induction entries with
  | nil =>
    intro levels raw hA hsub _
    exact ⟨hA, hsub⟩
  | cons e rest ih =>
    intro levels raw hA hsub hent
    have hentrest : ∀ x ∈ rest, entryOK conv sym S x :=
      fun x hx => hent x (List.mem_cons_of_mem e hx)
    cases hpt : priceToInteger conv sym e.strs.1 with
    | none =>
      simp only [applySide, hpt]
      exact ⟨hA, hsub⟩
    | some pi =>
      cases hst : sizeToIntegerStr e.strs.2 with
      | none =>
        simp only [applySide, hpt, hst]
        exact ⟨hA, hsub⟩
      | some si =>
        obtain ⟨hpsS, hszOK⟩ := hent e (List.mem_cons_self e rest)
          (by rw [hpt]; rfl) (by rw [hst]; rfl)
        obtain ⟨raw', hupd, halign, hsub'⟩ :=
          updateBoth_aligned conv sym S hP rev e.strs.1 e.strs.2 pi si hpsS hpt hst hszOK
            levels raw hA hsub
        have hrec := ih (updateLevel levels pi si rev) raw' halign hsub' hentrest
        simp only [applySide, hpt, hst, hupd, eq_self_iff_true, if_true]
        exact hrec

theorem applySide_fails (conv : IntegerConverter) (sym : String) (S : List String)
    (hP : PricesOK conv sym S) (rev : Bool) :
    ∀ (entries : List LevelEntry) (levels : List (ℤ × ℤ)) (raw : List (String × String)),
      Aligned conv sym levels raw → (∀ e ∈ raw, e.1 ∈ S) →
      (∀ e ∈ entries, entryOK conv sym S e) →
      (∃ e ∈ entries,
        priceToInteger conv sym e.strs.1 = none ∨ sizeToIntegerStr e.strs.2 = none) →
      (applySide conv sym rev levels raw entries).2 = false := by
  intro entries
  induction entries with
  | nil =>
    intro levels raw _ _ _ hfail
    obtain ⟨e, he, _⟩ := hfail
    exact absurd he (List.not_mem_nil e)
  | cons e rest ih =>
    intro levels raw hA hsub hent hfail
    cases hpt : priceToInteger conv sym e.strs.1 with
    | none => simp only [applySide, hpt]
    | some pi =>
      cases hst : sizeToIntegerStr e.strs.2 with
      | none => simp only [applySide, hpt, hst]
      | some si =>
        have hfail' : ∃ x ∈ rest,
            priceToInteger conv sym x.strs.1 = none ∨ sizeToIntegerStr x.strs.2 = none := by
          obtain ⟨x, hx, hor⟩ := hfail
          rcases List.mem_cons.mp hx with rfl | hxr
          · rcases hor with h | h
            · rw [hpt] at h; exact absurd h (by simp)
            · rw [hst] at h; exact absurd h (by simp)
          · exact ⟨x, hxr, hor⟩
        obtain ⟨hpsS, hszOK⟩ := hent e (List.mem_cons_self e rest)
          (by rw [hpt]; rfl) (by rw [hst]; rfl)
        obtain ⟨raw', hupd, halign, hsub'⟩ :=
          updateBoth_aligned conv sym S hP rev e.strs.1 e.strs.2 pi si hpsS hpt hst hszOK
            levels raw hA hsub
        have hrec := ih (updateLevel levels pi si rev) raw' halign hsub'
          (fun x hx => hent x (List.mem_cons_of_mem e hx)) hfail'
        simp only [applySide, hpt, hst, hupd, eq_self_iff_true, if_true]
        exact hrec

theorem buildSide_aligned (conv : IntegerConverter) (sym : String) (S : List String) :
    ∀ (entries : List LevelEntry),
      (∀ e ∈ entries, entryOK conv sym S e) →
      Aligned conv sym (buildSide conv sym entries).1.1 (buildSide conv sym entries).1.2 ∧
        ∀ e ∈ (buildSide conv sym entries).1.2, e.1 ∈ S := by
  intro entries
  induction entries with
  | nil =>
    intro _
    exact ⟨List.Forall₂.nil, fun e he => absurd he (List.not_mem_nil e)⟩
  | cons e rest ih =>
    intro hent
    cases hpt : priceToInteger conv sym e.strs.1 with
    | none =>
      simp only [buildSide, hpt]
      exact ⟨List.Forall₂.nil, fun x hx => absurd hx (List.not_mem_nil x)⟩
    | some pi =>
      cases hst : sizeToIntegerStr e.strs.2 with
      | none =>
        simp only [buildSide, hpt, hst]
        exact ⟨List.Forall₂.nil, fun x hx => absurd hx (List.not_mem_nil x)⟩
      | some si =>
        obtain ⟨hpsS, _⟩ := hent e (List.mem_cons_self e rest)
          (by rw [hpt]; rfl) (by rw [hst]; rfl)
        obtain ⟨hrecA, hrecS⟩ := ih (fun x hx => hent x (List.mem_cons_of_mem e hx))
        simp only [buildSide, hpt, hst]
        refine ⟨List.Forall₂.cons ⟨hpt, hst⟩ hrecA, ?_⟩
        intro x hx
        rcases List.mem_cons.mp hx with rfl | h2
        · exact hpsS
        · exact hrecS x h2

theorem updateFromSnapshot_aligned (conv : IntegerConverter) (S : List String)
    (b : OrderBook) (m : Msg) (hP : PricesOK conv m.symbol S)
    (hAa : Aligned conv m.symbol b.asks b.rawAsks)
    (hbuy : ∀ e ∈ buyEntries m, entryOK conv m.symbol S e)
    (hsell : ∀ e ∈ sellEntries m, entryOK conv m.symbol S e) :
    Aligned conv m.symbol (updateFromSnapshot conv b m).1.bids
        (updateFromSnapshot conv b m).1.rawBids ∧
      Aligned conv m.symbol (updateFromSnapshot conv b m).1.asks
        (updateFromSnapshot conv b m).1.rawAsks := by
  obtain ⟨hBA, hBS⟩ := buildSide_aligned conv m.symbol S (buyEntries m) hbuy
  rcases hbres : buildSide conv m.symbol (buyEntries m) with ⟨⟨bl, rbl⟩, bflag⟩
  rw [hbres] at hBA hBS
  dsimp only at hBA hBS
  cases bflag
  · simp only [updateFromSnapshot, hbres]
    exact ⟨hBA, hAa⟩
  · obtain ⟨hAA, hAS⟩ := buildSide_aligned conv m.symbol S (sellEntries m) hsell
    rcases hares : buildSide conv m.symbol (sellEntries m) with ⟨⟨al, ral⟩, aflag⟩
    rw [hares] at hAA hAS
    dsimp only at hAA hAS
    cases aflag
    · simp only [updateFromSnapshot, hbres, hares]
      exact ⟨hBA, hAA⟩
    · obtain ⟨RB, hsortB, halignB, _⟩ :=
        sort_both_aligned conv m.symbol S hP true bl rbl hBA hBS
      obtain ⟨RA, hsortA, halignA, _⟩ :=
        sort_both_aligned conv m.symbol S hP false al ral hAA hAS
      simp only [updateFromSnapshot, hbres, hares, hsortB, hsortA]
      exact ⟨halignB, halignA⟩

theorem applyUpdate_aligned (conv : IntegerConverter) (S : List String)
    (b : OrderBook) (m : Msg) (hP : PricesOK conv b.symbol S)
    (hAb : Aligned conv b.symbol b.bids b.rawBids) (hsb : ∀ e ∈ b.rawBids, e.1 ∈ S)
    (hAa : Aligned conv b.symbol b.asks b.rawAsks) (hsa : ∀ e ∈ b.rawAsks, e.1 ∈ S)
    (hbuy : ∀ e ∈ buyEntries m, entryOK conv b.symbol S e)
    (hsell : ∀ e ∈ sellEntries m, entryOK conv b.symbol S e) :
    Aligned conv b.symbol (applyUpdate conv b m).1.bids (applyUpdate conv b m).1.rawBids ∧
      Aligned conv b.symbol (applyUpdate conv b m).1.asks (applyUpdate conv b m).1.rawAsks := by
  by_cases hgap : b.sequenceNo > 0 ∧ msgSeq m ≠ b.sequenceNo + 1
  · simp only [applyUpdate, if_pos hgap]
    exact ⟨hAb, hAa⟩
  · obtain ⟨hBA, hBS⟩ :=
      applySide_aligned conv b.symbol S hP true (buyEntries m) b.bids b.rawBids hAb hsb hbuy
    rcases hbres : applySide conv b.symbol true b.bids b.rawBids (buyEntries m)
      with ⟨⟨bl, rbl⟩, bflag⟩
    rw [hbres] at hBA hBS
    dsimp only at hBA hBS
    cases bflag
    · simp only [applyUpdate, if_neg hgap, hbres]
      exact ⟨hBA, hAa⟩
    · obtain ⟨hAA, hAS⟩ :=
        applySide_aligned conv b.symbol S hP false (sellEntries m) b.asks b.rawAsks hAa hsa hsell
      rcases hares : applySide conv b.symbol false b.asks b.rawAsks (sellEntries m)
        with ⟨⟨al, ral⟩, aflag⟩
      rw [hares] at hAA hAS
      dsimp only at hAA hAS
      cases aflag
      · simp only [applyUpdate, if_neg hgap, hbres, hares]
        exact ⟨hBA, hAA⟩
      · simp only [applyUpdate, if_neg hgap, hbres, hares]
        exact ⟨hBA, hAA⟩

/-- C3 counterexample: the claim fails for well-formed (all-numeric) inputs.
With scale 100 registered for `"T"`, a snapshot at `1.00/5` followed by the
successful delta `[["2.00", "0.000000001"]]` desynchronises the ladders: the
sub-`10^-8` size truncates to integer `0` (so `_update_level` drops it) while
its float value is positive (so `_update_raw_level` appends it) - the integer
bid ladder has 1 entry but the raw bid ladder 2. -/
theorem claim3_counterexample :
    (updateFromSnapshot c3conv (emptyBook "T") c3snap).2 = true ∧
    (applyUpdate c3conv (updateFromSnapshot c3conv (emptyBook "T") c3snap).1 c3delta).2 =
      Except.ok true ∧
    (applyUpdate c3conv (updateFromSnapshot c3conv (emptyBook "T") c3snap).1
        c3delta).1.bids.length = 1 ∧
    (applyUpdate c3conv (updateFromSnapshot c3conv (emptyBook "T") c3snap).1
        c3delta).1.rawBids.length = 2 := by
  with_unfolding_all decide

/-- **C3** (corrected): `_update_level` keys on exact converted integers while
`_update_raw_level` keys on `float(price_str)`, and the integer side drops
sub-`10^-8` sizes the raw side keeps, so the claimed invariant needs the
well-formedness regime made explicit: all prices drawn from a pool on which
integer and float keys induce the same equalities and order, and every size
agreeing with its float value about zero/positivity.  Under those hypotheses,
any snapshot apply and any delta apply (successful or not) preserve pairwise
alignment of each side's integer ladder with its raw ladder. -/
theorem claim3_ladder_alignment (conv : IntegerConverter) (sym : String) (S : List String)
    (b : OrderBook) (m : Msg) (hms : m.symbol = sym) (hbs : b.symbol = sym)
    (hP : PricesOK conv sym S)
    (hAb : Aligned conv sym b.bids b.rawBids) (hsb : ∀ e ∈ b.rawBids, e.1 ∈ S)
    (hAa : Aligned conv sym b.asks b.rawAsks) (hsa : ∀ e ∈ b.rawAsks, e.1 ∈ S)
    (hbuy : ∀ e ∈ buyEntries m, entryOK conv sym S e)
    (hsell : ∀ e ∈ sellEntries m, entryOK conv sym S e) :
    (Aligned conv sym (updateFromSnapshot conv b m).1.bids
        (updateFromSnapshot conv b m).1.rawBids ∧
      Aligned conv sym (updateFromSnapshot conv b m).1.asks
        (updateFromSnapshot conv b m).1.rawAsks) ∧
    (Aligned conv sym (applyUpdate conv b m).1.bids (applyUpdate conv b m).1.rawBids ∧
      Aligned conv sym (applyUpdate conv b m).1.asks (applyUpdate conv b m).1.rawAsks) := by
  constructor
  · rw [← hms] at hP hAa hbuy hsell ⊢
    exact updateFromSnapshot_aligned conv S b m hP hAa hbuy hsell
  · rw [← hbs] at hP hAb hAa hbuy hsell ⊢
    exact applyUpdate_aligned conv S b m hP hAb hsb hAa hsa hbuy hsell

/-- C3 witness: the pool `{"1.00", "2.00"}` at scale 100 satisfies `PricesOK`,
and both a snapshot and a delta carrying `["2.00", "3"]` applied to a fresh
book leave the ladders aligned. -/
theorem claim3_ladder_alignment_witness :
    PricesOK c3conv "T" c3S ∧
      ((Aligned c3conv "T" (updateFromSnapshot c3conv (emptyBook "T") c3wmsg).1.bids
          (updateFromSnapshot c3conv (emptyBook "T") c3wmsg).1.rawBids ∧
        Aligned c3conv "T" (updateFromSnapshot c3conv (emptyBook "T") c3wmsg).1.asks
          (updateFromSnapshot c3conv (emptyBook "T") c3wmsg).1.rawAsks) ∧
       (Aligned c3conv "T" (applyUpdate c3conv (emptyBook "T") c3wmsg).1.bids
          (applyUpdate c3conv (emptyBook "T") c3wmsg).1.rawBids ∧
        Aligned c3conv "T" (applyUpdate c3conv (emptyBook "T") c3wmsg).1.asks
          (applyUpdate c3conv (emptyBook "T") c3wmsg).1.rawAsks)) := by
  have hP : PricesOK c3conv "T" c3S :=
    ⟨by with_unfolding_all decide, by with_unfolding_all decide,
     by with_unfolding_all decide, by with_unfolding_all decide⟩
  refine ⟨hP, claim3_ladder_alignment c3conv "T" c3S (emptyBook "T") c3wmsg rfl rfl hP
    List.Forall₂.nil (fun e he => absurd he (List.not_mem_nil e))
    List.Forall₂.nil (fun e he => absurd he (List.not_mem_nil e)) ?_ ?_⟩
  · simp only [entryOK, SizeOK]
    with_unfolding_all decide
  · simp only [entryOK, SizeOK]
    with_unfolding_all decide

/-- C5 counterexample: `apply_update` does propagate the parse error, but only
after partially mutating state.  On a book at sequence 1, the delta
`[["2.50", "7"], ["zzz", "1"]]` raises on its second entry: the error
propagates, yet `sequence_no` has already advanced to 2 and the first level
has already been upserted into the bid ladders. -/
theorem claim5_counterexample :
    (applyUpdate c5conv c5book c5delta).2 = Except.error () ∧
      (applyUpdate c5conv c5book c5delta).1.sequenceNo ≠ c5book.sequenceNo ∧
      (applyUpdate c5conv c5book c5delta).1.bids ≠ c5book.bids := by
  with_unfolding_all decide

/-- The conversion loop of `update_from_snapshot` stops with a raise as soon
as any entry of the side fails to convert. -/
theorem buildSide_fails (conv : IntegerConverter) (sym : String) :
    ∀ (entries : List LevelEntry),
      (∃ e ∈ entries,
        priceToInteger conv sym e.strs.1 = none ∨ sizeToIntegerStr e.strs.2 = none) →
      (buildSide conv sym entries).2 = false := by
  intro entries
  induction entries with
  | nil =>
    rintro ⟨e, he, _⟩
    exact absurd he (List.not_mem_nil e)
  | cons e rest ih =>
    rintro ⟨x, hx, hor⟩
    cases hpt : priceToInteger conv sym e.strs.1 with
    | none => simp only [buildSide, hpt]
    | some pi =>
      cases hst : sizeToIntegerStr e.strs.2 with
      | none => simp only [buildSide, hpt, hst]
      | some si =>
        rcases List.mem_cons.mp hx with rfl | hxr
        · rcases hor with h | h
          · rw [hpt] at h; exact absurd h (by simp)
          · rw [hst] at h; exact absurd h (by simp)
        · have hrec := ih ⟨x, hxr, hor⟩
          simp only [buildSide, hpt, hst]
          exact hrec

/-- `update_from_snapshot` propagates a conversion raise on either side as its
failure flag. -/
theorem updateFromSnapshot_fails (conv : IntegerConverter) (b : OrderBook) (m : Msg)
    (hfail : ∃ e, (e ∈ buyEntries m ∨ e ∈ sellEntries m) ∧
      (priceToInteger conv m.symbol e.strs.1 = none ∨ sizeToIntegerStr e.strs.2 = none)) :
    (updateFromSnapshot conv b m).2 = false := by
  obtain ⟨e, hside, hor⟩ := hfail
  rcases hbres : buildSide conv m.symbol (buyEntries m) with ⟨⟨bl, rbl⟩, bflag⟩
  cases bflag
  · simp only [updateFromSnapshot, hbres]
  · rcases hside with hbuyMem | hsellMem
    · have hflag := buildSide_fails conv m.symbol (buyEntries m) ⟨e, hbuyMem, hor⟩
      rw [hbres] at hflag
      dsimp only at hflag
      exact absurd hflag (by decide)
    · have haflag := buildSide_fails conv m.symbol (sellEntries m) ⟨e, hsellMem, hor⟩
      rcases hares : buildSide conv m.symbol (sellEntries m) with ⟨⟨al, ral⟩, aflag⟩
      rw [hares] at haflag
      dsimp only at haflag
      subst haflag
      simp only [updateFromSnapshot, hbres, hares]

/-- **C5** (corrected): a non-convertible numeric field in any entry of either
side makes both apply operations raise to their caller - `apply_update`
returns `Except.error ()` and `update_from_snapshot` its failure flag - but
the operations are not atomic: `apply_update` has already assigned
`sequence_no` and `timestamp` and upserted every level preceding the bad one
(see the counterexample).  What does survive the raise, in the
well-formedness regime of C3, is Ladder/RawLadder pairwise consistency: both
sides of the partially-mutated error state remain aligned, for both
operations. -/
theorem claim5_parse_error_propagates (conv : IntegerConverter) (sym : String)
    (S : List String) (b : OrderBook) (m : Msg) (hms : m.symbol = sym)
    (hbs : b.symbol = sym) (hP : PricesOK conv sym S)
    (hAb : Aligned conv sym b.bids b.rawBids) (hsb : ∀ e ∈ b.rawBids, e.1 ∈ S)
    (hAa : Aligned conv sym b.asks b.rawAsks) (hsa : ∀ e ∈ b.rawAsks, e.1 ∈ S)
    (hbuy : ∀ e ∈ buyEntries m, entryOK conv sym S e)
    (hsell : ∀ e ∈ sellEntries m, entryOK conv sym S e)
    (hgap : ¬(b.sequenceNo > 0 ∧ msgSeq m ≠ b.sequenceNo + 1))
    (hfail : ∃ e, (e ∈ buyEntries m ∨ e ∈ sellEntries m) ∧
      (priceToInteger conv sym e.strs.1 = none ∨ sizeToIntegerStr e.strs.2 = none)) :
    ((applyUpdate conv b m).2 = Except.error () ∧
      Aligned conv sym (applyUpdate conv b m).1.bids (applyUpdate conv b m).1.rawBids ∧
      Aligned conv sym (applyUpdate conv b m).1.asks (applyUpdate conv b m).1.rawAsks) ∧
    ((updateFromSnapshot conv b m).2 = false ∧
      Aligned conv sym (updateFromSnapshot conv b m).1.bids
        (updateFromSnapshot conv b m).1.rawBids ∧
      Aligned conv sym (updateFromSnapshot conv b m).1.asks
        (updateFromSnapshot conv b m).1.rawAsks) := by
  constructor
  · rw [← hbs] at hP hAb hAa hbuy hsell hfail ⊢
    have halign := applyUpdate_aligned conv S b m hP hAb hsb hAa hsa hbuy hsell
    obtain ⟨e, hside, hor⟩ := hfail
    rcases hbres : applySide conv b.symbol true b.bids b.rawBids (buyEntries m)
      with ⟨⟨bl, rbl⟩, bflag⟩
    cases bflag
    · refine ⟨?_, halign.1, halign.2⟩
      simp only [applyUpdate, if_neg hgap, hbres]
    · rcases hside with hbuyMem | hsellMem
      · have hflag := applySide_fails conv b.symbol S hP true (buyEntries m) b.bids
          b.rawBids hAb hsb hbuy ⟨e, hbuyMem, hor⟩
        rw [hbres] at hflag
        dsimp only at hflag
        exact absurd hflag (by decide)
      · have hsflag := applySide_fails conv b.symbol S hP false (sellEntries m) b.asks
          b.rawAsks hAa hsa hsell ⟨e, hsellMem, hor⟩
        rcases hares : applySide conv b.symbol false b.asks b.rawAsks (sellEntries m)
          with ⟨⟨al, ral⟩, aflag⟩
        rw [hares] at hsflag
        dsimp only at hsflag
        subst hsflag
        refine ⟨?_, halign.1, halign.2⟩
        simp only [applyUpdate, if_neg hgap, hbres, hares]
  · rw [← hms] at hP hAa hbuy hsell hfail ⊢
    refine ⟨updateFromSnapshot_fails conv b m hfail, ?_⟩
    exact updateFromSnapshot_aligned conv S b m hP hAa hbuy hsell

/-- C5 witness: a message whose only entry `["zzz", "1"]` sits in the sell
array makes `apply_update` on a fresh book raise (`Except.error ()`) and
`update_from_snapshot` report failure, with the (empty, hence aligned)
ladders staying aligned in both results. -/
theorem claim5_parse_error_propagates_witness :
    (∃ e, (e ∈ buyEntries c5wmsg ∨ e ∈ sellEntries c5wmsg) ∧
      (priceToInteger c5conv "T" e.strs.1 = none ∨ sizeToIntegerStr e.strs.2 = none)) ∧
    (((applyUpdate c5conv (emptyBook "T") c5wmsg).2 = Except.error () ∧
      Aligned c5conv "T" (applyUpdate c5conv (emptyBook "T") c5wmsg).1.bids
        (applyUpdate c5conv (emptyBook "T") c5wmsg).1.rawBids ∧
      Aligned c5conv "T" (applyUpdate c5conv (emptyBook "T") c5wmsg).1.asks
        (applyUpdate c5conv (emptyBook "T") c5wmsg).1.rawAsks) ∧
     ((updateFromSnapshot c5conv (emptyBook "T") c5wmsg).2 = false ∧
      Aligned c5conv "T" (updateFromSnapshot c5conv (emptyBook "T") c5wmsg).1.bids
        (updateFromSnapshot c5conv (emptyBook "T") c5wmsg).1.rawBids ∧
      Aligned c5conv "T" (updateFromSnapshot c5conv (emptyBook "T") c5wmsg).1.asks
        (updateFromSnapshot c5conv (emptyBook "T") c5wmsg).1.rawAsks)) := by
  have hfail : ∃ e, (e ∈ buyEntries c5wmsg ∨ e ∈ sellEntries c5wmsg) ∧
      (priceToInteger c5conv "T" e.strs.1 = none ∨ sizeToIntegerStr e.strs.2 = none) :=
    ⟨LevelEntry.arr "zzz" "1", Or.inr (by decide), Or.inl (by with_unfolding_all decide)⟩
  refine ⟨hfail, claim5_parse_error_propagates c5conv "T" [] (emptyBook "T") c5wmsg rfl rfl
    ⟨fun p hp => absurd hp (List.not_mem_nil p), fun p hp => absurd hp (List.not_mem_nil p),
     fun p hp => absurd hp (List.not_mem_nil p), fun p hp => absurd hp (List.not_mem_nil p)⟩
    List.Forall₂.nil (fun e he => absurd he (List.not_mem_nil e))
    List.Forall₂.nil (fun e he => absurd he (List.not_mem_nil e))
    ?_ ?_ (by decide) hfail⟩
  · simp only [entryOK, SizeOK]
    with_unfolding_all decide
  · simp only [entryOK, SizeOK]
    with_unfolding_all decide
